import Mathlib

/-!
Verification of the expression parser in `rmb-parser/src/expression.rs`.

The parser consumes a token stream produced by `rmb_lexer` and builds an
`Expression` tree in which every node carries its source-byte `Location`.
The token/lexer types (`Location`, `Operator`, `Primitive`, `Value`, `Kind`,
`Token`, the `Lexer` cursor) and the `Expression` sum type live outside the
parser source file; they are modelled from the specification and from the
way the parser source uses them.  The parser functions themselves are
translated directly from `expression.rs`.

Rust recursion is represented with an explicit fuel parameter: `mkFuns n`
yields the record of all mutually recursive parse routines where every call
(including one loop iteration) descends one fuel level.  Running out of fuel
is the distinct outcome `PErr.fuel`, never confused with a parse error
(`PErr.diag`) or a Rust panic such as `todo!()` / `unreachable!()`
(`PErr.panicked`).
-/

set_option maxRecDepth 4000

/-- Modelled from the spec: a half-open byte range `[start, end)` into the
original source text (`rmb_lexer::token::Location`, outside `src/`).
`Location::new(start, end)` and `Range::into()` both simply store the pair. -/
structure Location where
  start_byte : Nat
  end_byte : Nat
deriving DecidableEq

/-- Modelled from the spec: the lexer's operator classification
(`rmb_lexer::token::Operator`, outside `src/`).  The variants are exactly the
ones the parser source references. -/
inductive Operator where
  | Plus
  | Minus
  | Star
  | Slash
  | And
  | EqualEqual
  | NotEqual
  | Equal
  | LeftParen
  | RightParen
  | LeftBrace
  | RightBrace
  | Colon
  | SemiColon
  | Comma
deriving DecidableEq

/-- Modelled from the spec: typed primitive literals with an intrinsic
bit-width (`rmb_lexer::token::Primitive`, outside `src/`).  The parser only
copies the payload, so the exact numeric carrier is irrelevant; the float
payload is represented by an integer stand-in since no claim inspects it. -/
inductive Primitive where
  | Int (value : Int) (size : Nat)
  | UInt (value : Nat) (size : Nat)
  | Float (value : Int) (size : Nat)
  | Bool (value : Bool)
deriving DecidableEq

/-- Modelled from the spec: value tokens (`rmb_lexer::token::Value`, outside
`src/`): an identifier, a typed primitive, or some further value kind the
parser does not support (it hits `todo!()` on those, spec section 4.11). -/
inductive Value where
  | Ident (name : String)
  | Primitive (p : Primitive)
  | Unsupported (descr : String)
deriving DecidableEq

/-- Modelled from the spec: token classification (`rmb_lexer::token::Kind`,
outside `src/`): value tokens, operator tokens and the keyword tokens the
parser source matches on. -/
inductive Kind where
  | Value (v : Value)
  | Op (op : Operator)
  | Var
  | Const
  | If
  | Else
  | Return
deriving DecidableEq

/-- Modelled from the spec: a classified lexical unit with a source-byte span. -/
structure Token where
  kind : Kind
  location : Location
deriving DecidableEq

/-- The `Expression` sum type of the AST.  Modelled from the spec (section 3)
and from the constructor usage in `expression.rs` (the type itself is declared
in the crate root, outside `src/`). -/
inductive Expression where
  | Ident (name : String) (location : Location)
  | IntLiteral (value : Int) (size : Nat) (location : Location)
  | UintLiteral (value : Nat) (size : Nat) (location : Location)
  | FloatLiteral (value : Int) (size : Nat) (location : Location)
  | Bool (value : Bool) (location : Location)
  | Block (expressions : List Expression) (location : Location)
  | Var (mutable : Bool) (typ : Option Expression) (name : String)
      (value : Expression) (location : Location)
  | Assign (ident : Expression) (value : Expression) (location : Location)
  | If (condition : Expression) (truthy : Expression)
      (falsy : List Expression) (location : Location)
  | BinaryOp (lhs : Expression) (operator : Operator) (rhs : Expression)
      (location : Location)
  | FunCall (ident : Expression) (arguments : List Expression) (location : Location)
  | Return (value : Expression) (location : Location)

/-- The `Expression::location()` accessor: every variant carries its span. -/
def Expression.location : Expression → Location
  | .Ident _ l => l
  | .IntLiteral _ _ l => l
  | .UintLiteral _ _ l => l
  | .FloatLiteral _ _ l => l
  | .Bool _ l => l
  | .Block _ l => l
  | .Var _ _ _ _ l => l
  | .Assign _ _ l => l
  | .If _ _ _ l => l
  | .BinaryOp _ _ _ l => l
  | .FunCall _ _ l => l
  | .Return _ l => l

/- The `precedences` module of `expression.rs` (`u8` constants, used only in
comparisons, so `Nat` is a faithful carrier). -/
namespace precedences

def BASE : Nat := 0

def SUM : Nat := 3

def MUL : Nat := 4

def ASSOC : Nat := 5

def APPLY : Nat := 6

end precedences

/-- `get_precedence` from `expression.rs` lines 17-25, verbatim. -/
def get_precedence (operator : Operator) : Nat :=
  match operator with
  | .Plus | .Minus => precedences.SUM
  | .Star | .Slash => precedences.MUL
  | .And => precedences.ASSOC
  | .LeftParen | .EqualEqual | .NotEqual => precedences.APPLY
  | _ => precedences.BASE

/-- Modelled from the spec: `Kind::is_binary_op` lives in `rmb_lexer`
(outside `src/`).  Spec section 4.4 step 3 says the operator loop proceeds
only for "a binary operator recognized by the precedence table", so the seven
table operators are the binary ones.  (At the points where the parser
consults it, any operator mapped to the BASE strength stops the loop anyway,
so the behaviour of the parser on the claims below does not depend on how
`is_binary_op` treats punctuation.) -/
def Kind.is_binary_op : Kind → Bool
  | .Op .Plus => true
  | .Op .Minus => true
  | .Op .Star => true
  | .Op .Slash => true
  | .Op .And => true
  | .Op .EqualEqual => true
  | .Op .NotEqual => true
  | _ => false

/-- Outcomes that abort a parse: a `miette` diagnostic (labelled spans, a
message, and the complete source text), a Rust panic (`todo!()` or
`unreachable!()`), or fuel exhaustion of this embedding. -/
inductive PErr where
  | diag (labels : List (Nat × Nat × String)) (message : String) (src : String)
  | panicked (msg : String)
  | fuel
deriving DecidableEq

/-- Modelled from the spec: the token source (`rmb_lexer::Lexer`, outside
`src/`), a peekable cursor over the token stream that also retains the
complete source text for diagnostics (spec section 4.1).  Tokens are assumed
already well lexed: upstream lexical errors are out of scope of every claim. -/
structure Lexer where
  tokens : List Token
  complete_source : String
deriving DecidableEq

/-- Parse results: either a value together with the advanced cursor, or an
abort. -/
abbrev PRes (α : Type) : Type := Except PErr (α × Lexer)

/-- `Lexer::peek` (spec section 4.1): next token without consuming it. -/
def Lexer.peek (lx : Lexer) : Option Token :=
  lx.tokens.head?

/-- Consuming one token (`Lexer::next` where the parser discards the value). -/
def Lexer.advance (lx : Lexer) : Lexer :=
  Lexer.mk lx.tokens.tail lx.complete_source

/-- Modelled from the spec: the diagnostic for end of input (spec section 7:
"token source exhausted where a token was required; diagnostic points at the
last byte of the source"), matching the convention visible in
`parse_identifier`'s end-of-input arm. -/
def eofDiag (src : String) : PErr :=
  PErr.diag [(src.length - 1, src.length, "at this location")] "unexpected end of file" src

/-- Modelled from the spec: `Lexer::expect(kind)` (spec section 4.1):
"consumes and returns the next token if it matches `kind`, else fails with a
wrong-token diagnostic"; end of input yields the end-of-input diagnostic. -/
def Lexer.expect (lx : Lexer) (kind : Kind) : Except PErr (Token × Lexer) :=
  match lx.tokens with
  | [] => .error (eofDiag lx.complete_source)
  | t :: rest =>
    if t.kind = kind then .ok (t, Lexer.mk rest lx.complete_source)
    else
      .error (PErr.diag [(t.location.start_byte, t.location.end_byte, "wrong token")]
        "unexpected token" lx.complete_source)

/-- Modelled from the spec: `Lexer::expect_one_of(kinds)` (spec section 4.1),
`expect` with a set of acceptable kinds. -/
def Lexer.expect_one_of (lx : Lexer) (kinds : List Kind) : Except PErr (Token × Lexer) :=
  match lx.tokens with
  | [] => .error (eofDiag lx.complete_source)
  | t :: rest =>
    if t.kind ∈ kinds then .ok (t, Lexer.mk rest lx.complete_source)
    else
      .error (PErr.diag [(t.location.start_byte, t.location.end_byte, "wrong token")]
        "unexpected token" lx.complete_source)

/-- `parse_identifier` from `expression.rs` lines 37-63: consume one token;
a non-identifier token yields the labelled "this identifier" diagnostic, end
of input yields the end-of-file diagnostic pointing at the last source byte,
an identifier yields the `Ident` node paired with its name. -/
def parse_identifier (lx : Lexer) : PRes (Expression × String) :=
  match lx.tokens with
  | [] => .error (eofDiag lx.complete_source)
  | t :: rest =>
    let name :=
      match t.kind with
      | .Value (.Ident n) => n
      | _ => ""
    if name = "" then
      .error (PErr.diag [(t.location.start_byte, t.location.end_byte, "this identifier")]
        "" lx.complete_source)
    else
      .ok ((Expression.Ident name t.location, name), Lexer.mk rest lx.complete_source)

/-- `parse_primitive` from `expression.rs` lines 342-358: consume one token,
which must be a primitive value token (`unreachable!()` otherwise), and build
the matching literal node copying value, size and location. -/
def parse_primitive (lx : Lexer) : PRes Expression :=
  match lx.tokens with
  | Token.mk (Kind.Value (Value.Primitive prim)) location :: rest =>
    let lx' := Lexer.mk rest lx.complete_source
    match prim with
    | .Int value size => .ok (Expression.IntLiteral value size location, lx')
    | .UInt value size => .ok (Expression.UintLiteral value size location, lx')
    | .Float value size => .ok (Expression.FloatLiteral value size location, lx')
    | .Bool value => .ok (Expression.Bool value location, lx')
  | _ => .error (PErr.panicked "unreachable")

/-- `parse_value` from `expression.rs` lines 175-189: dispatch on the peeked
value token; primitives go to `parse_primitive`, identifiers to
`parse_identifier` (dropping the name component), any other value kind hits
`todo!()`. -/
def parse_value (lx : Lexer) : PRes Expression :=
  match lx.peek with
  | none => .error (PErr.panicked "unreachable")
  | some t =>
    match t.kind with
    | .Value v =>
      match v with
      | .Primitive _ => parse_primitive lx
      | .Ident _ =>
        match parse_identifier lx with
        | .error err => .error err
        | .ok (pair, lx') => .ok (pair.fst, lx')
      | .Unsupported _ => .error (PErr.panicked "todo")
    | _ => .error (PErr.panicked "unreachable")

/-- The record of the mutually recursive parse routines of `expression.rs`;
`mkFuns` ties the knot one fuel level at a time.  The three `_loop` fields
are the bodies of the `loop`/`while` statements inside `parse_expr_block`,
`parse_if_expression` and `parse_fun_call`, with the accumulated list as the
loop state; `climb` is the operator loop of `parse_with_precedence` with the
accumulated left operand as the loop state. -/
structure Funs where
  parse_expression : Lexer → PRes Expression
  parse_expr_block : Lexer → PRes Expression
  block_loop : List Expression → Lexer → PRes (List Expression)
  parse_variable : Lexer → PRes Expression
  parse_if_expression : Lexer → PRes Expression
  else_loop : List Expression → Lexer → PRes (List Expression)
  parse_operation : Lexer → PRes Expression
  parse_fun_call : Expression → Lexer → PRes Expression
  arg_loop : List Expression → Lexer → PRes (List Expression)
  parse_assign : Expression → Lexer → PRes Expression
  parse_with_precedence : Nat → Lexer → PRes Expression
  climb : Nat → Expression → Lexer → PRes Expression
  parse_return_expression : Lexer → PRes Expression

/-- Fuel exhaustion: every routine aborts with the distinct `fuel` outcome. -/
def outOfFuel : Funs :=
  Funs.mk (fun _ => .error .fuel) (fun _ => .error .fuel) (fun _ _ => .error .fuel)
    (fun _ => .error .fuel) (fun _ => .error .fuel) (fun _ _ => .error .fuel)
    (fun _ => .error .fuel) (fun _ _ => .error .fuel) (fun _ _ => .error .fuel)
    (fun _ _ => .error .fuel) (fun _ _ => .error .fuel) (fun _ _ _ => .error .fuel)
    (fun _ => .error .fuel)

/-- `parse_expression` from `expression.rs` lines 27-35: peek one token; the
`var`/`const` keywords dispatch to variable parsing, anything else to
precedence climbing at the BASE strength; an exhausted stream hits
`unreachable!()`. -/
def parse_expression_body (p : Funs) (lx : Lexer) : PRes Expression :=
  match lx.peek with
  | some token =>
    match token.kind with
    | .Var | .Const => p.parse_variable lx
    | _ => p.parse_with_precedence precedences.BASE lx
  | none => .error (PErr.panicked "unreachable")

/-- `parse_expr_block` from `expression.rs` lines 65-91: opening brace, the
expression loop, closing brace; the node spans both braces. -/
def parse_expr_block_body (p : Funs) (lx : Lexer) : PRes Expression :=
  match lx.expect (Kind.Op Operator.LeftBrace) with
  | .error err => .error err
  | .ok (block_start, lx) =>
    match p.block_loop [] lx with
    | .error err => .error err
    | .ok (expressions, lx) =>
      match lx.expect (Kind.Op Operator.RightBrace) with
      | .error err => .error err
      | .ok (block_end, lx) =>
        .ok (Expression.Block expressions
          (Location.mk block_start.location.start_byte block_end.location.end_byte), lx)

/-- The `loop` of `parse_expr_block` (lines 70-82): stop before a closing
brace or at end of input, otherwise parse one expression and continue. -/
def block_loop_body (p : Funs) (acc : List Expression) (lx : Lexer) : PRes (List Expression) :=
  match lx.peek with
  | some token =>
    match token.kind with
    | .Op .RightBrace => .ok (acc, lx)
    | _ =>
      match p.parse_expression lx with
      | .error err => .error err
      | .ok (expr, lx') => p.block_loop (acc ++ [expr]) lx'
  | none => .ok (acc, lx)

/-- The block-or-expression dispatch shared by the initializer of
`parse_variable` (lines 109-115) and the value of `parse_assign` (lines
251-255): a peeked opening brace selects block parsing, anything else the
general expression parser, and an exhausted stream hits `unreachable!()`. -/
def value_or_block (p : Funs) (lx : Lexer) : PRes Expression :=
  match lx.peek with
  | some token =>
    match token.kind with
    | .Op .LeftBrace => p.parse_expr_block lx
    | _ => p.parse_expression lx
  | none => .error (PErr.panicked "unreachable")

/-- The tail of `parse_variable` after the optional type annotation (lines
107-126): `=`, block-or-expression initializer, mandatory semicolon; the
node spans keyword to initializer end. -/
def var_tail (p : Funs) (keyword : Token) (mutable : Bool) (name : String)
    (typ : Option (Expression × String)) (lx : Lexer) : PRes Expression :=
  match lx.expect (Kind.Op Operator.Equal) with
  | .error err => .error err
  | .ok (_, lx) =>
    match value_or_block p lx with
    | .error err => .error err
    | .ok (value, lx) =>
      match lx.expect (Kind.Op Operator.SemiColon) with
      | .error err => .error err
      | .ok (_, lx) =>
        let location := Location.mk keyword.location.start_byte value.location.end_byte
        .ok (Expression.Var mutable (typ.map Prod.fst) name value location, lx)

/-- `parse_variable` from `expression.rs` lines 93-127: keyword (fixing
mutability), name, optional `: typ` annotation, then `var_tail`. -/
def parse_variable_body (p : Funs) (lx : Lexer) : PRes Expression :=
  match lx.expect_one_of [Kind.Var, Kind.Const] with
  | .error err => .error err
  | .ok (keyword, lx) =>
    let mutable :=
      match keyword.kind with
      | .Var => true
      | _ => false
    match parse_identifier lx with
    | .error err => .error err
    | .ok (pair, lx) =>
      let typRes : Except PErr (Option (Expression × String) × Lexer) :=
        match lx.peek with
        | some token =>
          match token.kind with
          | .Op .Colon =>
            match parse_identifier lx.advance with
            | .error err => .error err
            | .ok (tp, lx') => .ok (some tp, lx')
          | _ => .ok (none, lx)
        | none => .ok (none, lx)
      match typRes with
      | .error err => .error err
      | .ok (typ, lx) => var_tail p keyword mutable pair.snd typ lx

/-- `parse_if_expression` from `expression.rs` lines 129-173: `if` keyword,
condition, truthy block, then the else-chasing loop; the node ends at the
last falsy branch, or at the truthy block if there is none. -/
def parse_if_expression_body (p : Funs) (lx : Lexer) : PRes Expression :=
  match lx.expect Kind.If with
  | .error err => .error err
  | .ok (keyword, lx) =>
    match p.parse_expression lx with
    | .error err => .error err
    | .ok (condition, lx) =>
      match p.parse_expr_block lx with
      | .error err => .error err
      | .ok (body, lx) =>
        match p.else_loop [] lx with
        | .error err => .error err
        | .ok (falsy, lx) =>
          let endByte :=
            match falsy.getLast? with
            | some branch => branch.location.end_byte
            | none => body.location.end_byte
          .ok (Expression.If condition body falsy
            (Location.mk keyword.location.start_byte endByte), lx)

/-- The `while let` loop of `parse_if_expression` (lines 138-159): on an
`else` keyword, consume it; `else if` recurses into `parse_if_expression`
and continues the loop, a terminal `else` block is pushed and breaks. -/
def else_loop_body (p : Funs) (acc : List Expression) (lx : Lexer) : PRes (List Expression) :=
  match lx.peek with
  | some keyword =>
    match keyword.kind with
    | .Else =>
      match lx.advance.peek with
      | some t =>
        match t.kind with
        | .If =>
          match p.parse_if_expression lx.advance with
          | .error err => .error err
          | .ok (else_if, lx') => p.else_loop (acc ++ [else_if]) lx'
        | _ =>
          match p.parse_expr_block lx.advance with
          | .error err => .error err
          | .ok (else_block, lx') => .ok (acc ++ [else_block], lx')
      | none =>
        match p.parse_expr_block lx.advance with
        | .error err => .error err
        | .ok (else_block, lx') => .ok (acc ++ [else_block], lx')
    | _ => .ok (acc, lx)
  | none => .ok (acc, lx)

/-- `parse_operation` from `expression.rs` lines 191-209: on a peeked
open-parenthesis, consume it, parse the grouped expression at BASE strength,
require the closing parenthesis, and return the inner expression unchanged;
every other operator hits `todo!()`. -/
def parse_operation_body (p : Funs) (lx : Lexer) : PRes Expression :=
  match lx.peek with
  | none => .error (PErr.panicked "unreachable")
  | some t =>
    match t.kind with
    | .Op op =>
      match op with
      | .LeftParen =>
        match p.parse_with_precedence precedences.BASE lx.advance with
        | .error err => .error err
        | .ok (left, lx) =>
          match lx.expect (Kind.Op Operator.RightParen) with
          | .error err => .error err
          | .ok (_, lx) => .ok (left, lx)
      | _ => .error (PErr.panicked "todo")
    | _ => .error (PErr.panicked "unreachable")

/-- `parse_fun_call` from `expression.rs` lines 211-246: open parenthesis,
the argument loop, mandatory closing parenthesis; the node spans from the
callee to the closing parenthesis. -/
def parse_fun_call_body (p : Funs) (ident : Expression) (lx : Lexer) : PRes Expression :=
  match lx.expect (Kind.Op Operator.LeftParen) with
  | .error err => .error err
  | .ok (_, lx) =>
    match p.arg_loop [] lx with
    | .error err => .error err
    | .ok (arguments, lx) =>
      match lx.expect (Kind.Op Operator.RightParen) with
      | .error err => .error err
      | .ok (close_paren, lx) =>
        .ok (Expression.FunCall ident arguments
          (Location.mk ident.location.start_byte close_paren.location.end_byte), lx)

/-- The argument `loop` of `parse_fun_call` (lines 219-235): a closing
parenthesis or end of input stops collection, a comma is consumed and
skipped unconditionally, anything else is parsed as one argument. -/
def arg_loop_body (p : Funs) (acc : List Expression) (lx : Lexer) : PRes (List Expression) :=
  match lx.peek with
  | some token =>
    match token.kind with
    | .Op .RightParen => .ok (acc, lx)
    | .Op .Comma => p.arg_loop acc lx.advance
    | _ =>
      match p.parse_expression lx with
      | .error err => .error err
      | .ok (arg, lx') => p.arg_loop (acc ++ [arg]) lx'
  | none => .ok (acc, lx)

/-- `parse_assign` from `expression.rs` lines 248-266: `=`, block-or-
expression value (`unreachable!()` on an exhausted stream), mandatory
semicolon; the node spans from the target to the semicolon. -/
def parse_assign_body (p : Funs) (left : Expression) (lx : Lexer) : PRes Expression :=
  match lx.expect (Kind.Op Operator.Equal) with
  | .error err => .error err
  | .ok (_, lx) =>
    match value_or_block p lx with
    | .error err => .error err
    | .ok (value, lx) =>
      match lx.expect (Kind.Op Operator.SemiColon) with
      | .error err => .error err
      | .ok (closing, lx) =>
        .ok (Expression.Assign left value
          (Location.mk left.location.start_byte closing.location.end_byte), lx)

/-- `parse_with_precedence` from `expression.rs` lines 268-326, first half:
parse one primary expression by the kind of the lookahead (`todo!()` on an
unhandled kind or on an exhausted stream), then the postfix special case for
an identifier followed by `(` (function call) or bare `=` (assignment), and
otherwise enter the operator loop (`climb`). -/
def parse_with_precedence_body (p : Funs) (min_precedence : Nat) (lx : Lexer) : PRes Expression :=
  let leftRes : PRes Expression :=
    match lx.peek with
    | some token =>
      match token.kind with
      | .Value _ => parse_value lx
      | .Op _ => p.parse_operation lx
      | .Return => p.parse_return_expression lx
      | .If => p.parse_if_expression lx
      | _ => .error (PErr.panicked "todo")
    | none => .error (PErr.panicked "todo")
  match leftRes with
  | .error err => .error err
  | .ok (left, lx) =>
    match left with
    | .Ident _ _ =>
      match lx.peek with
      | some token =>
        match token.kind with
        | .Op .LeftParen => p.parse_fun_call left lx
        | .Op .Equal => p.parse_assign left lx
        | _ => p.climb min_precedence left lx
      | none => p.climb min_precedence left lx
    | _ => p.climb min_precedence left lx

/-- The operator `loop` of `parse_with_precedence` (lines 291-326): stop on
end of input, a non-operator token, a non-binary operator, or an operator
whose strength is not strictly above `min_precedence`; otherwise consume the
operator, parse the right operand with the operator's own strength as the
new minimum, fold a `BinaryOp` node spanning both operands, and continue. -/
def climb_body (p : Funs) (min_precedence : Nat) (left : Expression) (lx : Lexer) :
    PRes Expression :=
  match lx.peek with
  | none => .ok (left, lx)
  | some next =>
    match next.kind with
    | .Op operator =>
      if (Kind.Op operator).is_binary_op then
        let precedence := get_precedence operator
        if precedence ≤ min_precedence then .ok (left, lx)
        else
          match p.parse_with_precedence precedence lx.advance with
          | .error err => .error err
          | .ok (right, lx) =>
            let location := Location.mk left.location.start_byte right.location.end_byte
            p.climb min_precedence (Expression.BinaryOp left operator right location) lx
      else .ok (left, lx)
    | _ => .ok (left, lx)

/-- `parse_return_expression` from `expression.rs` lines 328-340: `return`
keyword, value expression, mandatory semicolon; the node spans keyword to
semicolon. -/
def parse_return_expression_body (p : Funs) (lx : Lexer) : PRes Expression :=
  match lx.expect Kind.Return with
  | .error err => .error err
  | .ok (keyword, lx) =>
    match p.parse_expression lx with
    | .error err => .error err
    | .ok (value, lx) =>
      match lx.expect (Kind.Op Operator.SemiColon) with
      | .error err => .error err
      | .ok (ending_semi, lx) =>
        .ok (Expression.Return value
          (Location.mk keyword.location.start_byte ending_semi.location.end_byte), lx)

/-- Tie the recursive knot: at fuel `n + 1` every routine may make calls at
fuel `n`. -/
def mkFuns : Nat → Funs
  | 0 => outOfFuel
  | n + 1 =>
    let p := mkFuns n
    Funs.mk (parse_expression_body p) (parse_expr_block_body p) (block_loop_body p)
      (parse_variable_body p) (parse_if_expression_body p) (else_loop_body p)
      (parse_operation_body p) (parse_fun_call_body p) (arg_loop_body p)
      (parse_assign_body p) (parse_with_precedence_body p) (climb_body p)
      (parse_return_expression_body p)

/-- Fueled entry point for `parse_expression`. -/
def parse_expression (fuel : Nat) (lx : Lexer) : PRes Expression :=
  (mkFuns fuel).parse_expression lx

/-- Fueled entry point for `parse_expr_block`. -/
def parse_expr_block (fuel : Nat) (lx : Lexer) : PRes Expression :=
  (mkFuns fuel).parse_expr_block lx

/-- Fueled entry point for `parse_operation`. -/
def parse_operation (fuel : Nat) (lx : Lexer) : PRes Expression :=
  (mkFuns fuel).parse_operation lx

/-- Fueled entry point for `parse_with_precedence`. -/
def parse_with_precedence (fuel : Nat) (min_precedence : Nat) (lx : Lexer) : PRes Expression :=
  (mkFuns fuel).parse_with_precedence min_precedence lx

/-- Containment of one byte range in another. -/
def containsLoc (p c : Location) : Bool :=
  decide (p.start_byte ≤ c.start_byte) && decide (c.end_byte ≤ p.end_byte)

mutual

/-- The location invariant of spec section 3: every node has
`start_byte ≤ end_byte` and contains the range of each of its children. -/
def nodeWF : Expression → Bool
  | .Ident _ l => decide (l.start_byte ≤ l.end_byte)
  | .IntLiteral _ _ l => decide (l.start_byte ≤ l.end_byte)
  | .UintLiteral _ _ l => decide (l.start_byte ≤ l.end_byte)
  | .FloatLiteral _ _ l => decide (l.start_byte ≤ l.end_byte)
  | .Bool _ l => decide (l.start_byte ≤ l.end_byte)
  | .Block es l => decide (l.start_byte ≤ l.end_byte) && nodeWFList l es
  | .Var _ typ _ v l => decide (l.start_byte ≤ l.end_byte) &&
      (match typ with
       | some t => containsLoc l t.location && nodeWF t
       | none => true) &&
      containsLoc l v.location && nodeWF v
  | .Assign a v l => decide (l.start_byte ≤ l.end_byte) &&
      containsLoc l a.location && nodeWF a && containsLoc l v.location && nodeWF v
  | .If c t f l => decide (l.start_byte ≤ l.end_byte) &&
      containsLoc l c.location && nodeWF c && containsLoc l t.location && nodeWF t &&
      nodeWFList l f
  | .BinaryOp a _ b l => decide (l.start_byte ≤ l.end_byte) &&
      containsLoc l a.location && nodeWF a && containsLoc l b.location && nodeWF b
  | .FunCall i args l => decide (l.start_byte ≤ l.end_byte) &&
      containsLoc l i.location && nodeWF i && nodeWFList l args
  | .Return v l => decide (l.start_byte ≤ l.end_byte) &&
      containsLoc l v.location && nodeWF v

/-- All expressions of a list are well formed and contained in `l`. -/
def nodeWFList : Location → List Expression → Bool
  | _, [] => true
  | l, e :: es => containsLoc l e.location && nodeWF e && nodeWFList l es

end

/-- The token stream shape guaranteed by any lexer over a source text:
each token has a well-formed span and consecutive tokens do not overlap. -/
def orderedB : List Token → Bool
  | [] => true
  | [t] => decide (t.location.start_byte ≤ t.location.end_byte)
  | t :: u :: rest =>
    decide (t.location.start_byte ≤ t.location.end_byte) &&
    decide (t.location.end_byte ≤ u.location.start_byte) && orderedB (u :: rest)

/-- Tokens of the flat arithmetic fragment of claim C1: numeric literals and
the four operators `+ - * /`. -/
def flatTok (t : Token) : Bool :=
  match t.kind with
  | .Value (.Primitive (.Int _ _)) => true
  | .Value (.Primitive (.UInt _ _)) => true
  | .Value (.Primitive (.Float _ _)) => true
  | .Op .Plus => true
  | .Op .Minus => true
  | .Op .Star => true
  | .Op .Slash => true
  | _ => false

/-- A left child that is itself a binary operation never binds strictly
weaker than its parent. -/
def leftChildOK (op : Operator) : Expression → Bool
  | .BinaryOp _ lop _ _ => decide (get_precedence op ≤ get_precedence lop)
  | _ => true

/-- A right child that is itself a binary operation binds strictly tighter
than its parent. -/
def rightChildOK (op : Operator) : Expression → Bool
  | .BinaryOp _ rop _ _ => decide (get_precedence op < get_precedence rop)
  | _ => true

/-- A binary-operation tree reflects the precedence table: at every
`BinaryOp` node the left subtree's top operator binds at least as tight and
the right subtree's top operator strictly tighter. -/
def precWF : Expression → Bool
  | .BinaryOp l op r _ => leftChildOK op l && rightChildOK op r && precWF l && precWF r
  | _ => true

/-- The top operator of an expression is not additive. -/
def notAdditiveTop : Expression → Bool
  | .BinaryOp _ cop _ _ => !(decide (cop = Operator.Plus) || decide (cop = Operator.Minus))
  | _ => true

/-- No `+`/`-` node sits directly under a `*`/`/` node: the claim's reading
of "`*` and `/` bind tighter than `+` and `-`". -/
def noAddUnderMul : Expression → Bool
  | .BinaryOp l op r _ =>
    (if op = Operator.Star ∨ op = Operator.Slash then notAdditiveTop l && notAdditiveTop r
     else true) &&
    noAddUnderMul l && noAddUnderMul r
  | _ => true

/-- Byte slice `source[a..b]` of an ASCII source text. -/
def sliceStr (s : String) (a b : Nat) : String :=
  String.mk ((s.toList.drop a).take (b - a))

/-- The parse outcome is a diagnostic error (neither success nor a panic). -/
def isParseDiag : PRes Expression → Bool
  | .error (.diag _ _ _) => true
  | _ => false

/-- Falsy-branch sequence of an `If` node. -/
def falsyOf : Expression → List Expression
  | .If _ _ f _ => f
  | _ => []

/-- Argument list of a `FunCall` node. -/
def argumentsOf : Expression → List Expression
  | .FunCall _ args _ => args
  | _ => []

/-- Claim C2's asserted result shape, from the spec's words: `"1 - 2 - 3"`
grouped right-leaning as `1 - (2 - 3)` (any locations, any literal widths). -/
def rightLeaningShape : Expression → Bool
  | .BinaryOp (.IntLiteral 1 _ _) .Minus
      (.BinaryOp (.IntLiteral 2 _ _) .Minus (.IntLiteral 3 _ _) _) _ => true
  | _ => false

/-- Shorthand: a token from kind and byte range. -/
def tk (k : Kind) (a b : Nat) : Token :=
  Token.mk k (Location.mk a b)

/-- Shorthand: a 32-bit integer literal token. -/
def itok (v : Int) (a b : Nat) : Token :=
  tk (Kind.Value (Value.Primitive (Primitive.Int v 32))) a b

/-- Shorthand: an operator token. -/
def otok (op : Operator) (a b : Nat) : Token :=
  tk (Kind.Op op) a b

/-- Shorthand: an identifier token. -/
def idtok (n : String) (a b : Nat) : Token :=
  tk (Kind.Value (Value.Ident n)) a b

/-- Token stream of `"1 + 2 * 3"`. -/
def lex_1p2t3 : Lexer :=
  Lexer.mk [itok 1 0 1, otok .Plus 2 3, itok 2 4 5, otok .Star 6 7, itok 3 8 9] "1 + 2 * 3"

/-- Expected tree of `"1 + 2 * 3"`: `1 + (2 * 3)`. -/
def tree_1p2t3 : Expression :=
  Expression.BinaryOp (Expression.IntLiteral 1 32 (Location.mk 0 1)) Operator.Plus
    (Expression.BinaryOp (Expression.IntLiteral 2 32 (Location.mk 4 5)) Operator.Star
      (Expression.IntLiteral 3 32 (Location.mk 8 9)) (Location.mk 4 9))
    (Location.mk 0 9)

/-- Token stream of `"1 - 2 - 3"`. -/
def lex_1m2m3 : Lexer :=
  Lexer.mk [itok 1 0 1, otok .Minus 2 3, itok 2 4 5, otok .Minus 6 7, itok 3 8 9] "1 - 2 - 3"

/-- Tree the code actually produces for `"1 - 2 - 3"`: `(1 - 2) - 3`. -/
def tree_1m2m3 : Expression :=
  Expression.BinaryOp
    (Expression.BinaryOp (Expression.IntLiteral 1 32 (Location.mk 0 1)) Operator.Minus
      (Expression.IntLiteral 2 32 (Location.mk 4 5)) (Location.mk 0 5))
    Operator.Minus (Expression.IntLiteral 3 32 (Location.mk 8 9)) (Location.mk 0 9)

/-- Token stream of `"1 +"`. -/
def lex_1plus : Lexer :=
  Lexer.mk [itok 1 0 1, otok .Plus 2 3] "1 +"

/-- Token stream of `"(1)"`. -/
def lex_paren1 : Lexer :=
  Lexer.mk [otok .LeftParen 0 1, itok 1 1 2, otok .RightParen 2 3] "(1)"

/-- Token stream of `"(1 + 2)"`. -/
def lex_paren12 : Lexer :=
  Lexer.mk [otok .LeftParen 0 1, itok 1 1 2, otok .Plus 3 4, itok 2 5 6, otok .RightParen 6 7]
    "(1 + 2)"

/-- Expected tree of `"(1 + 2)"`: the inner operation, parentheses dropped. -/
def tree_paren12 : Expression :=
  Expression.BinaryOp (Expression.IntLiteral 1 32 (Location.mk 1 2)) Operator.Plus
    (Expression.IntLiteral 2 32 (Location.mk 5 6)) (Location.mk 1 6)

/-- Token stream of `"var x = 1;"`. -/
def lex_var : Lexer :=
  Lexer.mk [tk Kind.Var 0 3, idtok "x" 4 5, otok .Equal 6 7, itok 1 8 9, otok .SemiColon 9 10]
    "var x = 1;"

/-- Expected tree of `"var x = 1;"`. -/
def tree_var : Expression :=
  Expression.Var true none "x" (Expression.IntLiteral 1 32 (Location.mk 8 9)) (Location.mk 0 9)

/-- Token stream of `"const x = 1;"`. -/
def lex_const : Lexer :=
  Lexer.mk
    [tk Kind.Const 0 5, idtok "x" 6 7, otok .Equal 8 9, itok 1 10 11, otok .SemiColon 11 12]
    "const x = 1;"

/-- Expected tree of `"const x = 1;"`. -/
def tree_const : Expression :=
  Expression.Var false none "x" (Expression.IntLiteral 1 32 (Location.mk 10 11))
    (Location.mk 0 11)

/-- Token stream of `"var x = 1"` (missing semicolon). -/
def lex_var_nosemi : Lexer :=
  Lexer.mk [tk Kind.Var 0 3, idtok "x" 4 5, otok .Equal 6 7, itok 1 8 9] "var x = 1"

/-- Token stream of `"if a \x7b\x7d else if b \x7b\x7d else \x7b\x7d"`. -/
def lex_ifchain : Lexer :=
  Lexer.mk
    [tk Kind.If 0 2, idtok "a" 3 4, otok .LeftBrace 5 6, otok .RightBrace 6 7,
     tk Kind.Else 8 12, tk Kind.If 13 15, idtok "b" 16 17, otok .LeftBrace 18 19,
     otok .RightBrace 19 20, tk Kind.Else 21 25, otok .LeftBrace 26 27, otok .RightBrace 27 28]
    "if a \x7b\x7d else if b \x7b\x7d else \x7b\x7d"

/-- Tree the code actually produces for the if / else if / else chain: the
terminal else block is attached to the inner if, so the root holds exactly
one falsy branch. -/
def tree_ifchain : Expression :=
  Expression.If (Expression.Ident "a" (Location.mk 3 4)) (Expression.Block [] (Location.mk 5 7))
    [Expression.If (Expression.Ident "b" (Location.mk 16 17))
      (Expression.Block [] (Location.mk 18 20))
      [Expression.Block [] (Location.mk 26 28)] (Location.mk 13 28)]
    (Location.mk 0 28)

/-- Token stream of `"if a \x7b\x7d"` (no else). -/
def lex_ifnoelse : Lexer :=
  Lexer.mk [tk Kind.If 0 2, idtok "a" 3 4, otok .LeftBrace 5 6, otok .RightBrace 6 7]
    "if a \x7b\x7d"

/-- Expected tree of the else-less conditional: empty falsy sequence. -/
def tree_ifnoelse : Expression :=
  Expression.If (Expression.Ident "a" (Location.mk 3 4)) (Expression.Block [] (Location.mk 5 7))
    [] (Location.mk 0 7)

/-- Token stream of `"\x7b\x7d"` (empty block). -/
def lex_empty_block : Lexer :=
  Lexer.mk [otok .LeftBrace 0 1, otok .RightBrace 1 2] "\x7b\x7d"

/-- Token stream of `"\x7b"` (unclosed block). -/
def lex_open_block : Lexer :=
  Lexer.mk [otok .LeftBrace 0 1] "\x7b"

/-- Token stream of `"f(1, 2,)"`. -/
def lex_call_trailing : Lexer :=
  Lexer.mk
    [idtok "f" 0 1, otok .LeftParen 1 2, itok 1 2 3, otok .Comma 3 4, itok 2 5 6,
     otok .Comma 6 7, otok .RightParen 7 8]
    "f(1, 2,)"

/-- Expected tree of `"f(1, 2,)"`. -/
def tree_call_trailing : Expression :=
  Expression.FunCall (Expression.Ident "f" (Location.mk 0 1))
    [Expression.IntLiteral 1 32 (Location.mk 2 3), Expression.IntLiteral 2 32 (Location.mk 5 6)]
    (Location.mk 0 8)

/-- Token stream of `"f(,1,,2,)"`. -/
def lex_call_commas : Lexer :=
  Lexer.mk
    [idtok "f" 0 1, otok .LeftParen 1 2, otok .Comma 2 3, itok 1 3 4, otok .Comma 4 5,
     otok .Comma 5 6, itok 2 6 7, otok .Comma 7 8, otok .RightParen 8 9]
    "f(,1,,2,)"

/-- Expected tree of `"f(,1,,2,)"`. -/
def tree_call_commas : Expression :=
  Expression.FunCall (Expression.Ident "f" (Location.mk 0 1))
    [Expression.IntLiteral 1 32 (Location.mk 3 4), Expression.IntLiteral 2 32 (Location.mk 6 7)]
    (Location.mk 0 9)

/-- `x` lies at or before the start of the next unconsumed token (if any). -/
def afterOK (x : Nat) (toks : List Token) : Prop :=
  ∀ t, toks.head? = some t → x ≤ t.location.start_byte

/-- The head of `toks` (if any) starts at or before byte `x`. -/
def startLB (toks : List Token) (x : Nat) : Prop :=
  ∀ t, toks.head? = some t → t.location.start_byte ≤ x

/-- Adjacent expressions of a list occupy non-overlapping, ordered spans. -/
def spanChain : List Expression → Prop
  | [] => True
  | [_] => True
  | a :: b :: r => a.location.end_byte ≤ b.location.start_byte ∧ spanChain (b :: r)

/-- The expressions a parse loop appended: all well formed, with ordered
spans, starting no earlier than the loop's first token and ending no later
than the start of the first token the loop left unconsumed. -/
def goodList (tin : List Token) (new : List Expression) (tout : List Token) : Prop :=
  (∀ b ∈ new, nodeWF b = true) ∧ spanChain new ∧
  (∀ b ∈ new, startLB tin b.location.start_byte) ∧
  (∀ b ∈ new, afterOK b.location.end_byte tout) ∧
  (new ≠ [] → tin ≠ [])

/-- Specification of an expression-returning parse routine on a well-lexed
token stream: it consumes a non-empty prefix, the tree it builds satisfies
the location invariant, the tree starts no earlier than the first token and
ends before the first unconsumed token. -/
def ExprSpec (f : Lexer → PRes Expression) : Prop :=
  ∀ lx e lx', orderedB lx.tokens = true → f lx = .ok (e, lx') →
    List.IsSuffix lx'.tokens lx.tokens ∧ lx.tokens ≠ [] ∧ nodeWF e = true ∧
    startLB lx.tokens e.location.start_byte ∧ afterOK e.location.end_byte lx'.tokens

/-- Specification of a parse routine that extends an already-parsed left
expression lying strictly before the remaining tokens: the result keeps the
left expression's start byte. -/
def PostSpec (f : Expression → Lexer → PRes Expression) : Prop :=
  ∀ left lx e lx', orderedB lx.tokens = true → nodeWF left = true →
    afterOK left.location.end_byte lx.tokens → f left lx = .ok (e, lx') →
    List.IsSuffix lx'.tokens lx.tokens ∧ nodeWF e = true ∧
    e.location.start_byte = left.location.start_byte ∧ afterOK e.location.end_byte lx'.tokens

/-- Specification of the three parse loops: the result extends the
accumulator by a `goodList` of newly parsed expressions. -/
def LoopSpec (f : List Expression → Lexer → PRes (List Expression)) : Prop :=
  ∀ acc lx res lx', orderedB lx.tokens = true → f acc lx = .ok (res, lx') →
    ∃ new, res = acc ++ new ∧ List.IsSuffix lx'.tokens lx.tokens ∧
      goodList lx.tokens new lx'.tokens

/-- All thirteen routines of one fuel level meet their specifications. -/
def FunsSpec (p : Funs) : Prop :=
  ExprSpec p.parse_expression ∧ ExprSpec p.parse_expr_block ∧ LoopSpec p.block_loop ∧
  ExprSpec p.parse_variable ∧ ExprSpec p.parse_if_expression ∧ LoopSpec p.else_loop ∧
  ExprSpec p.parse_operation ∧ PostSpec p.parse_fun_call ∧ LoopSpec p.arg_loop ∧
  PostSpec p.parse_assign ∧ (∀ minp, ExprSpec (p.parse_with_precedence minp)) ∧
  (∀ minp, PostSpec (p.climb minp)) ∧ ExprSpec p.parse_return_expression

/-- Flat-fragment specification of `parse_with_precedence` (claim C1): on a
token stream of numeric literals and `+ - * /` only, a successful parse
yields a tree reflecting the precedence table (`precWF`), whose top operator
(if any) binds strictly above the requested minimum, and stops only when the
next operator (if any) binds at or below the minimum. -/
def FlatWPSpec (f : Nat → Lexer → PRes Expression) : Prop :=
  ∀ minp lx e lx', lx.tokens.all flatTok = true → f minp lx = .ok (e, lx') →
    precWF e = true ∧
    (∀ l op r loc, e = Expression.BinaryOp l op r loc → minp < get_precedence op) ∧
    (∀ t op, lx'.tokens.head? = some t → t.kind = Kind.Op op → get_precedence op ≤ minp) ∧
    lx'.tokens.all flatTok = true

/-- Flat-fragment specification of the operator loop (claim C1), with the
loop-state hypotheses: the accumulated left tree is `precWF`, its top
operator binds strictly above the minimum, and the next operator in the
stream (if the left tree is an operation) binds at or below its top. -/
def FlatClimbSpec (f : Nat → Expression → Lexer → PRes Expression) : Prop :=
  ∀ minp left lx e lx', lx.tokens.all flatTok = true →
    precWF left = true →
    (∀ l op r loc, left = Expression.BinaryOp l op r loc → minp < get_precedence op) →
    (∀ l lop r lloc, left = Expression.BinaryOp l lop r lloc →
      ∀ t op, lx.tokens.head? = some t → t.kind = Kind.Op op →
        get_precedence op ≤ get_precedence lop) →
    f minp left lx = .ok (e, lx') →
    precWF e = true ∧
    (∀ l op r loc, e = Expression.BinaryOp l op r loc → minp < get_precedence op) ∧
    (∀ t op, lx'.tokens.head? = some t → t.kind = Kind.Op op → get_precedence op ≤ minp) ∧
    lx'.tokens.all flatTok = true

/-- Flat-fragment span specification of `parse_with_precedence` (claim C5):
a successful parse consumes a non-empty prefix of the tokens and the root
span runs from the first consumed token's start byte to the last consumed
token's end byte. -/
def SpanWPSpec (f : Nat → Lexer → PRes Expression) : Prop :=
  ∀ minp lx e lx', lx.tokens.all flatTok = true → f minp lx = .ok (e, lx') →
    ∃ c t0 tn, lx.tokens = c ++ lx'.tokens ∧ c.head? = some t0 ∧ c.getLast? = some tn ∧
      e.location.start_byte = t0.location.start_byte ∧
      e.location.end_byte = tn.location.end_byte

/-- Flat-fragment span specification of the operator loop (claim C5): it
either consumes nothing and returns the left tree unchanged, or consumes a
prefix and produces a tree starting at the left tree's start byte and ending
at the last consumed token's end byte. -/
def SpanClimbSpec (f : Nat → Expression → Lexer → PRes Expression) : Prop :=
  ∀ minp left lx e lx', lx.tokens.all flatTok = true → f minp left lx = .ok (e, lx') →
    ∃ c, lx.tokens = c ++ lx'.tokens ∧
      ((c = [] ∧ e = left) ∨
        (∃ tn, c.getLast? = some tn ∧ e.location.start_byte = left.location.start_byte ∧
          e.location.end_byte = tn.location.end_byte))

/-- The expression is a plain literal node — the only shape
`parse_primitive` produces. -/
def litTop : Expression → Bool
  | .IntLiteral _ _ _ => true
  | .UintLiteral _ _ _ => true
  | .FloatLiteral _ _ _ => true
  | .Bool _ _ => true
  | _ => false

/-- Flat-fragment specification of `parse_operation` (claims C1 and C5): on
a token stream of numeric literals and `+ - * /` only it never succeeds — an
opening parenthesis never occurs, and every other operator kind hits the
`todo!()` or `unreachable!()` arm. -/
def FlatOpNever (f : Lexer → PRes Expression) : Prop :=
  ∀ lx e lx', lx.tokens.all flatTok = true → f lx = .ok (e, lx') → False

/-- C2 counterexample: the claim says `"1 - 2 - 3"` parses right-leaning as
`1 - (2 - 3)`; the code disagrees: the parse succeeds but the produced tree
does not have that shape (for any locations or literal widths). -/
theorem c2_counterexample :
    (parse_expression 32 lex_1m2m3).map (fun r => rightLeaningShape r.fst) ≠ Except.ok true := by
  intro h
  rw [show (parse_expression 32 lex_1m2m3).map (fun r => rightLeaningShape r.fst) =
    Except.ok false from rfl] at h
  simp at h

/-- C2 (amended): a chain of equal-strength operators groups left-leaning:
`"1 - 2 - 3"` parses as `(1 - 2) - 3`, because the recursive right-operand
call receives the consumed operator's own strength as the minimum and
therefore refuses an equal-strength successor, which the outer loop then
folds onto the accumulated left tree. -/
theorem c2_left_leaning :
    parse_expression 32 lex_1m2m3 = .ok (tree_1m2m3, Lexer.mk [] "1 - 2 - 3") := rfl

/-- C3 counterexample: the claim says the root of
`"if a \x7b\x7d else if b \x7b\x7d else \x7b\x7d"` has exactly two falsy
branches; in the code the recursive `else if` call consumes the terminal
`else` block itself, so the root has exactly one. -/
theorem c3_counterexample :
    (parse_expression 32 lex_ifchain).map (fun r => (falsyOf r.fst).length) ≠ Except.ok 2 := by
  intro h
  rw [show (parse_expression 32 lex_ifchain).map (fun r => (falsyOf r.fst).length) =
    Except.ok 1 from rfl] at h
  simp at h

/-- C3 (amended): an `if` with no `else` yields an empty falsy-branch
sequence, and `"if a \x7b\x7d else if b \x7b\x7d else \x7b\x7d"` yields a
root with exactly one falsy branch: a nested `If` node whose own falsy
sequence holds exactly one plain `Block` (the terminal else). -/
theorem c3_if_else_chain :
    parse_expression 32 lex_ifnoelse = .ok (tree_ifnoelse, Lexer.mk [] lex_ifnoelse.complete_source) ∧
    parse_expression 32 lex_ifchain = .ok (tree_ifchain, Lexer.mk [] lex_ifchain.complete_source) :=
  ⟨rfl, rfl⟩

/-- C4: on `"1 +"` (token stream exhausted immediately after a consumed
binary operator) the recursive right-operand call hits the `todo!()` arm of
`parse_with_precedence` (line 280), i.e. the code panics instead of
returning the end-of-input diagnostic the claim describes. -/
theorem c4_eof_after_operator_panics :
    parse_expression 32 lex_1plus = .error (PErr.panicked "todo") := rfl

/-- C5 counterexample: `"(1)"` is syntactically valid, but the root node's
span is `[1, 2)` (the parentheses are consumed without being recorded), so
the root substring is `"1"`, which does not reproduce the source text and
differs from it by more than whitespace. -/
theorem c5_counterexample :
    parse_expression 32 lex_paren1 =
      .ok (Expression.IntLiteral 1 32 (Location.mk 1 2), Lexer.mk [] "(1)") ∧
    sliceStr "(1)" 1 2 = "1" ∧ ("1" : String) ≠ "(1)" :=
  ⟨rfl, rfl, by decide⟩

/-- C7: `"var x = 1;"` parses to a declaration with `mutable = true` whose
span `[0, 9)` runs from the keyword to the initializer end, excluding the
semicolon at `[9, 10)`; `"const x = 1;"` parses with `mutable = false`; and
omitting the semicolon is a parse error (a diagnostic, not a panic). -/
theorem c7_variable_declaration :
    parse_expression 32 lex_var = .ok (tree_var, Lexer.mk [] "var x = 1;") ∧
    parse_expression 32 lex_const = .ok (tree_const, Lexer.mk [] "const x = 1;") ∧
    isParseDiag (parse_expression 32 lex_var_nosemi) = true :=
  ⟨rfl, rfl, rfl⟩

/-- C8: the empty block `"\x7b\x7d"` parses to a `Block` node with zero
children spanning both braces, and end of input before the closing brace is
a parse error (a diagnostic, not a panic and not a truncated block). -/
theorem c8_block_parsing :
    parse_expr_block 32 lex_empty_block =
      .ok (Expression.Block [] (Location.mk 0 2), Lexer.mk [] lex_empty_block.complete_source) ∧
    isParseDiag (parse_expr_block 32 lex_open_block) = true :=
  ⟨rfl, rfl⟩

/-- C9: commas at argument position are consumed and skipped
unconditionally, so `"f(1, 2,)"` and `"f(,1,,2,)"` both parse to a call of
`f` with exactly the argument list `[1, 2]`. -/
theorem c9_fun_call_commas :
    parse_expression 32 lex_call_trailing = .ok (tree_call_trailing, Lexer.mk [] "f(1, 2,)") ∧
    parse_expression 32 lex_call_commas = .ok (tree_call_commas, Lexer.mk [] "f(,1,,2,)") :=
  ⟨rfl, rfl⟩

theorem mem_of_head_eq {α : Type} {l : List α} {a : α} (h : l.head? = some a) : a ∈ l := by
  cases l with
  | nil => simp at h
  | cons x xs =>
    rw [List.head?_cons] at h
    injection h with h1
    subst h1
    exact List.mem_cons_self x xs

theorem orderedB_cons {t : Token} {rest : List Token} (h : orderedB (t :: rest) = true) :
    t.location.start_byte ≤ t.location.end_byte ∧
    (∀ u, rest.head? = some u → t.location.end_byte ≤ u.location.start_byte) ∧
    orderedB rest = true := by
  cases rest with
  | nil =>
    simp only [orderedB, decide_eq_true_eq] at h
    refine ⟨h, ?_, rfl⟩
    intro u hu
    simp at hu
  | cons v rest' =>
    simp only [orderedB, Bool.and_eq_true, decide_eq_true_eq] at h
    refine ⟨h.1.1, ?_, h.2⟩
    intro u hu
    rw [List.head?_cons] at hu
    injection hu with h1
    subst h1
    exact h.1.2

theorem orderedB_suffix {toks s : List Token} (h : orderedB toks = true)
    (hs : List.IsSuffix s toks) : orderedB s = true := by
  induction toks with
  | nil =>
    have hnil : s = [] := by simpa using hs
    subst hnil
    rfl
  | cons t rest ih =>
    rcases List.suffix_cons_iff.mp hs with h1 | h2
    · subst h1; exact h
    · exact ih (orderedB_cons h).2.2 h2

theorem ordered_after_head {t : Token} {rest s : List Token} (h : orderedB (t :: rest) = true)
    (hs : List.IsSuffix s rest) :
    ∀ u, s.head? = some u → t.location.end_byte ≤ u.location.start_byte := by
  induction rest generalizing t with
  | nil =>
    intro u hu
    have hnil : s = [] := by simpa using hs
    subst hnil
    simp at hu
  | cons v rest' ih =>
    intro u hu
    rcases List.suffix_cons_iff.mp hs with h1 | h2
    · subst h1
      exact (orderedB_cons h).2.1 u hu
    · have hc := orderedB_cons h
      have hvu := ih hc.2.2 h2 u hu
      have htv := hc.2.1 v rfl
      have hv := (orderedB_cons hc.2.2).1
      omega

theorem ordered_suffix_head_mono {toks s : List Token} (h : orderedB toks = true)
    (hs : List.IsSuffix s toks) :
    ∀ t u, toks.head? = some t → s.head? = some u →
      t.location.start_byte ≤ u.location.start_byte := by
  intro t u ht hu
  cases toks with
  | nil => simp at ht
  | cons t0 rest =>
    rw [List.head?_cons] at ht
    injection ht with h1
    subst h1
    rcases List.suffix_cons_iff.mp hs with h1 | h2
    · subst h1
      rw [List.head?_cons] at hu
      injection hu with h2
      subst h2
      exact le_refl _
    · have h3 := ordered_after_head h h2 u hu
      have h4 := (orderedB_cons h).1
      omega

theorem afterOK_suffix {x : Nat} {toks s : List Token} (h : orderedB toks = true)
    (ha : afterOK x toks) (hs : List.IsSuffix s toks) : afterOK x s := by
  intro u hu
  cases toks with
  | nil =>
    have hnil : s = [] := by simpa using hs
    subst hnil
    simp at hu
  | cons t rest =>
    rcases List.suffix_cons_iff.mp hs with h1 | h2
    · subst h1
      exact ha u hu
    · have h1 : x ≤ t.location.start_byte := ha t rfl
      have h3 := ordered_after_head h h2 u hu
      have h4 := (orderedB_cons h).1
      omega

theorem startLB_lift {toks s : List Token} {x : Nat} (h : orderedB toks = true)
    (hs : List.IsSuffix s toks) (hx : startLB s x) (hne : s ≠ []) : startLB toks x := by
  intro t ht
  cases hsh : s.head? with
  | none =>
    cases s with
    | nil => exact absurd rfl hne
    | cons a l => simp at hsh
  | some u =>
    have h1 := ordered_suffix_head_mono h hs t u ht hsh
    have h2 := hx u hsh
    omega

theorem spanChain_cons {x : Expression} {l : List Expression}
    (hx : ∀ b, l.head? = some b → x.location.end_byte ≤ b.location.start_byte)
    (hl : spanChain l) : spanChain (x :: l) := by
  cases l with
  | nil => trivial
  | cons b r => exact ⟨hx b rfl, hl⟩

theorem spanChain_last_le : ∀ (l : List Expression), spanChain l →
    (∀ b ∈ l, b.location.start_byte ≤ b.location.end_byte) →
    ∀ x ∈ l, ∀ z, l.getLast? = some z → x.location.end_byte ≤ z.location.end_byte := by
  intro l
  induction l with
  | nil =>
    intro _ _ x hx
    cases hx
  | cons a l' ih =>
    intro hc hwf x hx z hz
    cases l' with
    | nil =>
      have hxa : x = a := by simpa using hx
      have hza : z = a := by
        have hg : ([a] : List Expression).getLast? = some a := rfl
        rw [hg] at hz
        injection hz with h1
        exact h1.symm
      subst hxa
      subst hza
      exact le_refl _
    | cons b r =>
      obtain ⟨h1, h2⟩ := hc
      have hz' : (b :: r).getLast? = some z := by
        rw [List.getLast?_cons_cons] at hz
        exact hz
      have hwf' : ∀ c ∈ b :: r, c.location.start_byte ≤ c.location.end_byte :=
        fun c hc' => hwf c (List.mem_cons_of_mem a hc')
      rcases List.mem_cons.mp hx with h | hx'
      · subst h
        have hb := ih h2 hwf' b (List.mem_cons_self b r) z hz'
        have hbwf : b.location.start_byte ≤ b.location.end_byte :=
          hwf' b (List.mem_cons_self b r)
        omega
      · exact ih h2 hwf' x hx' z hz'

theorem containsLoc_iff {p c : Location} :
    containsLoc p c = true ↔ p.start_byte ≤ c.start_byte ∧ c.end_byte ≤ p.end_byte := by
  simp [containsLoc]

theorem nodeWFList_iff (l : Location) (es : List Expression) :
    nodeWFList l es = true ↔ ∀ b ∈ es, containsLoc l b.location = true ∧ nodeWF b = true := by
  induction es with
  | nil => simp [nodeWFList]
  | cons e es' ih =>
    simp only [nodeWFList, Bool.decide_eq_true, Bool.and_eq_true, List.forall_mem_cons, ih,
      and_assoc]

theorem nodeWF_span {e : Expression} (h : nodeWF e = true) :
    e.location.start_byte ≤ e.location.end_byte := by
  cases e with
  | Ident n l => simpa [nodeWF] using h
  | IntLiteral v s l => simpa [nodeWF] using h
  | UintLiteral v s l => simpa [nodeWF] using h
  | FloatLiteral v s l => simpa [nodeWF] using h
  | Bool v l => simpa [nodeWF] using h
  | Block es l =>
    simp only [nodeWF, Bool.and_eq_true, decide_eq_true_eq] at h
    exact h.1
  | Var m t n v l =>
    cases t with
    | none =>
      simp only [nodeWF, Bool.and_true, Bool.and_eq_true, decide_eq_true_eq] at h
      exact h.1.1
    | some ty =>
      simp only [nodeWF, Bool.and_eq_true, decide_eq_true_eq] at h
      exact h.1.1.1
  | Assign a v l =>
    simp only [nodeWF, Bool.and_eq_true, decide_eq_true_eq] at h
    exact h.1.1.1.1
  | If c t f l =>
    simp only [nodeWF, Bool.and_eq_true, decide_eq_true_eq] at h
    exact h.1.1.1.1.1
  | BinaryOp a op b l =>
    simp only [nodeWF, Bool.and_eq_true, decide_eq_true_eq] at h
    exact h.1.1.1.1
  | FunCall i args l =>
    simp only [nodeWF, Bool.and_eq_true, decide_eq_true_eq] at h
    exact h.1.1.1
  | Return v l =>
    simp only [nodeWF, Bool.and_eq_true, decide_eq_true_eq] at h
    exact h.1.1

theorem expect_spec {lx : Lexer} {k : Kind} {t : Token} {lx' : Lexer}
    (h : lx.expect k = .ok (t, lx')) :
    lx.tokens = t :: lx'.tokens ∧ t.kind = k := by
  unfold Lexer.expect at h
  cases htoks : lx.tokens with
  | nil =>
    rw [htoks] at h
    exact absurd h (by simp)
  | cons u rest =>
    rw [htoks] at h
    simp only [] at h
    by_cases hk : u.kind = k
    · rw [if_pos hk] at h
      have h1 : u = t ∧ Lexer.mk rest lx.complete_source = lx' := by
        injection h with h2
        injection h2 with h3 h4
        exact ⟨h3, h4⟩
      obtain ⟨h3, h4⟩ := h1
      subst h3
      constructor
      · rw [← h4]
      · exact hk
    · rw [if_neg hk] at h
      exact absurd h (by simp)

theorem expect_one_of_spec {lx : Lexer} {ks : List Kind} {t : Token} {lx' : Lexer}
    (h : lx.expect_one_of ks = .ok (t, lx')) :
    lx.tokens = t :: lx'.tokens ∧ t.kind ∈ ks := by
  unfold Lexer.expect_one_of at h
  cases htoks : lx.tokens with
  | nil =>
    rw [htoks] at h
    exact absurd h (by simp)
  | cons u rest =>
    rw [htoks] at h
    simp only [] at h
    by_cases hk : u.kind ∈ ks
    · rw [if_pos hk] at h
      have h1 : u = t ∧ Lexer.mk rest lx.complete_source = lx' := by
        injection h with h2
        injection h2 with h3 h4
        exact ⟨h3, h4⟩
      obtain ⟨h3, h4⟩ := h1
      subst h3
      constructor
      · rw [← h4]
      · exact hk
    · rw [if_neg hk] at h
      exact absurd h (by simp)

theorem parse_identifier_spec {lx : Lexer} {pr : Expression × String} {lx' : Lexer}
    (h : parse_identifier lx = .ok (pr, lx')) :
    ∃ t rest, lx.tokens = t :: rest ∧ lx'.tokens = rest ∧
      pr.fst = Expression.Ident pr.snd t.location := by
  unfold parse_identifier at h
  cases htoks : lx.tokens with
  | nil =>
    rw [htoks] at h
    exact absurd h (by simp)
  | cons t rest =>
    rw [htoks] at h
    simp only [] at h
    by_cases hn :
        (match t.kind with
         | Kind.Value (Value.Ident n) => n
         | _ => "") = ""
    · rw [if_pos hn] at h
      exact absurd h (by simp)
    · rw [if_neg hn] at h
      refine ⟨t, rest, rfl, ?_, ?_⟩
      · have h1 : ((Expression.Ident
            (match t.kind with
             | Kind.Value (Value.Ident n) => n
             | _ => "") t.location,
            (match t.kind with
             | Kind.Value (Value.Ident n) => n
             | _ => "")), Lexer.mk rest lx.complete_source) = (pr, lx') := by
          injection h with h2
        rw [← (Prod.mk.injEq _ _ _ _).mp h1 |>.2]
      · have h1 : ((Expression.Ident
            (match t.kind with
             | Kind.Value (Value.Ident n) => n
             | _ => "") t.location,
            (match t.kind with
             | Kind.Value (Value.Ident n) => n
             | _ => "")), Lexer.mk rest lx.complete_source) = (pr, lx') := by
          injection h with h2
        have h2 := (Prod.mk.injEq _ _ _ _).mp h1 |>.1
        rw [← h2]

theorem parse_primitive_spec {lx : Lexer} {e : Expression} {lx' : Lexer}
    (h : parse_primitive lx = .ok (e, lx')) :
    ∃ t rest, lx.tokens = t :: rest ∧ lx'.tokens = rest ∧ e.location = t.location ∧
      ((∃ v s, e = Expression.IntLiteral v s t.location) ∨
       (∃ v s, e = Expression.UintLiteral v s t.location) ∨
       (∃ v s, e = Expression.FloatLiteral v s t.location) ∨
       (∃ v, e = Expression.Bool v t.location)) := by
  unfold parse_primitive at h
  cases htoks : lx.tokens with
  | nil =>
    rw [htoks] at h
    exact absurd h (by simp)
  | cons t rest =>
    obtain ⟨tkind, tloc⟩ := t
    rw [htoks] at h
    cases tkind with
    | Value v =>
      cases v with
      | Primitive prim =>
        cases prim with
        | Int val sz =>
          simp only [] at h
          injection h with h2
          injection h2 with he hl
          subst he
          subst hl
          exact ⟨_, rest, rfl, rfl, rfl, Or.inl ⟨val, sz, rfl⟩⟩
        | UInt val sz =>
          simp only [] at h
          injection h with h2
          injection h2 with he hl
          subst he
          subst hl
          exact ⟨_, rest, rfl, rfl, rfl, Or.inr (Or.inl ⟨val, sz, rfl⟩)⟩
        | Float val sz =>
          simp only [] at h
          injection h with h2
          injection h2 with he hl
          subst he
          subst hl
          exact ⟨_, rest, rfl, rfl, rfl, Or.inr (Or.inr (Or.inl ⟨val, sz, rfl⟩))⟩
        | Bool val =>
          simp only [] at h
          injection h with h2
          injection h2 with he hl
          subst he
          subst hl
          exact ⟨_, rest, rfl, rfl, rfl, Or.inr (Or.inr (Or.inr ⟨val, rfl⟩))⟩
      | Ident nm =>
        simp only [] at h
        exact absurd h (by simp)
      | Unsupported d =>
        simp only [] at h
        exact absurd h (by simp)
    | Op op =>
      simp only [] at h
      exact absurd h (by simp)
    | Var =>
      simp only [] at h
      exact absurd h (by simp)
    | Const =>
      simp only [] at h
      exact absurd h (by simp)
    | If =>
      simp only [] at h
      exact absurd h (by simp)
    | Else =>
      simp only [] at h
      exact absurd h (by simp)
    | Return =>
      simp only [] at h
      exact absurd h (by simp)

theorem parse_value_spec : ExprSpec parse_value := by
  intro lx e lx' hord hok
  unfold parse_value at hok
  rw [Lexer.peek] at hok
  cases htoks : lx.tokens with
  | nil =>
    rw [htoks] at hok
    exact absurd hok (by simp)
  | cons t rest =>
    rw [htoks] at hok
    simp only [List.head?_cons] at hok
    have hordc := orderedB_cons (htoks ▸ hord)
    cases hk : t.kind with
    | Value v =>
      rw [hk] at hok
      cases v with
      | Primitive pr =>
        simp only [] at hok
        obtain ⟨u, rest2, hu1, hu2, hu3, hshape⟩ := parse_primitive_spec hok
        rw [htoks] at hu1
        injection hu1 with hh1 hh2
        subst hh1
        subst hh2
        refine ⟨?_, by simp, ?_, ?_, ?_⟩
        · rw [hu2]
          exact List.suffix_cons _ _
        · rcases hshape with ⟨v', s', he⟩ | ⟨v', s', he⟩ | ⟨v', s', he⟩ | ⟨v', he⟩ <;>
            (subst he; simpa [nodeWF] using hordc.1)
        · intro w hw
          rw [List.head?_cons] at hw
          injection hw with hw1
          subst hw1
          rw [hu3]
        · intro w hw
          rw [hu2] at hw
          have h5 := hordc.2.1 w hw
          rw [hu3]
          exact h5
      | Ident nm =>
        simp only [] at hok
        cases hpi : parse_identifier lx with
        | error err =>
          rw [hpi] at hok
          exact absurd hok (by simp)
        | ok pr =>
          rw [hpi] at hok
          obtain ⟨pair, lxm⟩ := pr
          simp only [] at hok
          injection hok with h2
          injection h2 with he hl
          obtain ⟨u, rest2, hu1, hu2, hu3⟩ := parse_identifier_spec hpi
          rw [htoks] at hu1
          injection hu1 with hh1 hh2
          subst hh1
          subst hh2
          subst he
          subst hl
          refine ⟨?_, by simp, ?_, ?_, ?_⟩
          · rw [hu2]
            exact List.suffix_cons _ _
          · rw [hu3]
            simpa [nodeWF] using hordc.1
          · intro w hw
            rw [List.head?_cons] at hw
            injection hw with hw1
            subst hw1
            rw [hu3]
            exact Nat.le_refl _
          · intro w hw
            rw [hu2] at hw
            have h5 := hordc.2.1 w hw
            rw [hu3]
            exact h5
      | Unsupported d =>
        simp only [] at hok
        exact absurd hok (by simp)
    | Op op =>
      rw [hk] at hok
      exact absurd hok (by simp)
    | Var =>
      rw [hk] at hok
      exact absurd hok (by simp)
    | Const =>
      rw [hk] at hok
      exact absurd hok (by simp)
    | If =>
      rw [hk] at hok
      exact absurd hok (by simp)
    | Else =>
      rw [hk] at hok
      exact absurd hok (by simp)
    | Return =>
      rw [hk] at hok
      exact absurd hok (by simp)

theorem expect_full {lx : Lexer} {k : Kind} {t : Token} {lx' : Lexer}
    (hord : orderedB lx.tokens = true) (h : lx.expect k = .ok (t, lx')) :
    lx.tokens = t :: lx'.tokens ∧ t.kind = k ∧
    t.location.start_byte ≤ t.location.end_byte ∧
    (∀ u, lx'.tokens.head? = some u → t.location.end_byte ≤ u.location.start_byte) ∧
    orderedB lx'.tokens = true := by
  obtain ⟨h1, h2⟩ := expect_spec h
  have hc := orderedB_cons (h1 ▸ hord)
  exact ⟨h1, h2, hc.1, hc.2.1, hc.2.2⟩

theorem expect_one_of_full {lx : Lexer} {ks : List Kind} {t : Token} {lx' : Lexer}
    (hord : orderedB lx.tokens = true) (h : lx.expect_one_of ks = .ok (t, lx')) :
    lx.tokens = t :: lx'.tokens ∧ t.kind ∈ ks ∧
    t.location.start_byte ≤ t.location.end_byte ∧
    (∀ u, lx'.tokens.head? = some u → t.location.end_byte ≤ u.location.start_byte) ∧
    orderedB lx'.tokens = true := by
  obtain ⟨h1, h2⟩ := expect_one_of_spec h
  have hc := orderedB_cons (h1 ▸ hord)
  exact ⟨h1, h2, hc.1, hc.2.1, hc.2.2⟩

theorem startLB_head {toks : List Token} {x : Nat} (h : startLB toks x) (hne : toks ≠ []) :
    ∃ t, toks.head? = some t ∧ t.location.start_byte ≤ x := by
  cases toks with
  | nil => exact absurd rfl hne
  | cons t rest => exact ⟨t, rfl, h t rfl⟩

theorem parse_expression_body_spec (p : Funs) (hvar : ExprSpec p.parse_variable)
    (hwp : ∀ minp, ExprSpec (p.parse_with_precedence minp)) :
    ExprSpec (parse_expression_body p) := by
  intro lx e lx' hord hok
  unfold parse_expression_body at hok
  rw [Lexer.peek] at hok
  cases htoks : lx.tokens with
  | nil =>
    rw [htoks] at hok
    exact absurd hok (by simp)
  | cons t rest =>
    rw [htoks] at hok
    simp only [List.head?_cons] at hok
    cases hk : t.kind
    case Var =>
      rw [hk] at hok
      simp only [] at hok
      have hres := hvar lx e lx' hord hok
      rwa [htoks] at hres
    case Const =>
      rw [hk] at hok
      simp only [] at hok
      have hres := hvar lx e lx' hord hok
      rwa [htoks] at hres
    all_goals
      rw [hk] at hok
      simp only [] at hok
      have hres := hwp precedences.BASE lx e lx' hord hok
      rwa [htoks] at hres

theorem parse_return_expression_body_spec (p : Funs) (hexpr : ExprSpec p.parse_expression) :
    ExprSpec (parse_return_expression_body p) := by
  intro lx e lx' hord hok
  unfold parse_return_expression_body at hok
  cases h1 : lx.expect Kind.Return with
  | error err =>
    rw [h1] at hok
    exact absurd hok (by simp)
  | ok pr1 =>
    rw [h1] at hok
    obtain ⟨keyword, lx1⟩ := pr1
    simp only [] at hok
    obtain ⟨he1, _, hkwf, hknext, hord1⟩ := expect_full hord h1
    cases h2 : p.parse_expression lx1 with
    | error err =>
      rw [h2] at hok
      exact absurd hok (by simp)
    | ok pr2 =>
      rw [h2] at hok
      obtain ⟨value, lx2⟩ := pr2
      simp only [] at hok
      obtain ⟨hsuf2, hne2, hwf2, hsl2, hao2⟩ := hexpr lx1 value lx2 hord1 h2
      cases h3 : lx2.expect (Kind.Op Operator.SemiColon) with
      | error err =>
        rw [h3] at hok
        exact absurd hok (by simp)
      | ok pr3 =>
        rw [h3] at hok
        obtain ⟨semi, lx3⟩ := pr3
        simp only [] at hok
        injection hok with h4
        injection h4 with he hl
        subst he
        subst hl
        have hord2 : orderedB lx2.tokens = true := orderedB_suffix hord1 hsuf2
        obtain ⟨he3, _, hswf, hsnext, hord3⟩ := expect_full hord2 h3
        obtain ⟨h0, hh0, hh0s⟩ := startLB_head hsl2 hne2
        have hk2h : keyword.location.end_byte ≤ h0.location.start_byte := hknext h0 hh0
        have hv2s : value.location.end_byte ≤ semi.location.start_byte := by
          apply hao2
          rw [he3, List.head?_cons]
        have hvwf := nodeWF_span hwf2
        refine ⟨?_, by rw [he1]; simp, ?_, ?_, ?_⟩
        · have s1 : lx3.tokens <:+ lx2.tokens := by
            rw [he3]
            exact List.suffix_cons _ _
          have s2 : lx1.tokens <:+ lx.tokens := by
            rw [he1]
            exact List.suffix_cons _ _
          exact (s1.trans hsuf2).trans s2
        · simp only [nodeWF, Bool.and_eq_true, decide_eq_true_eq, containsLoc]
          refine ⟨⟨?_, ?_, ?_⟩, hwf2⟩
          · omega
          · omega
          · omega
        · intro w hw
          rw [he1, List.head?_cons] at hw
          injection hw with hw1
          subst hw1
          exact Nat.le_refl _
        · intro w hw
          have h6 := hsnext w hw
          simp only [Expression.location]
          omega

theorem parse_operation_body_spec (p : Funs)
    (hwp : ∀ minp, ExprSpec (p.parse_with_precedence minp)) :
    ExprSpec (parse_operation_body p) := by
  intro lx e lx' hord hok
  unfold parse_operation_body at hok
  rw [Lexer.peek] at hok
  cases htoks : lx.tokens with
  | nil =>
    rw [htoks] at hok
    exact absurd hok (by simp)
  | cons t rest =>
    rw [htoks] at hok
    simp only [List.head?_cons] at hok
    cases hk : t.kind
    case Op op =>
      rw [hk] at hok
      cases op
      case LeftParen =>
        simp only [] at hok
        have hadv : lx.advance.tokens = rest := by
          simp [Lexer.advance, htoks]
        cases h2 : p.parse_with_precedence precedences.BASE lx.advance with
        | error err =>
          rw [h2] at hok
          exact absurd hok (by simp)
        | ok pr2 =>
          rw [h2] at hok
          obtain ⟨left, lx2⟩ := pr2
          simp only [] at hok
          have hord1 : orderedB lx.advance.tokens = true := by
            rw [hadv]
            exact (orderedB_cons (htoks ▸ hord)).2.2
          obtain ⟨hsuf2, hne2, hwf2, hsl2, hao2⟩ :=
            hwp precedences.BASE lx.advance left lx2 hord1 h2
          cases h3 : lx2.expect (Kind.Op Operator.RightParen) with
          | error err =>
            rw [h3] at hok
            exact absurd hok (by simp)
          | ok pr3 =>
            rw [h3] at hok
            obtain ⟨rp, lx3⟩ := pr3
            simp only [] at hok
            injection hok with h4
            injection h4 with he hl
            subst he
            subst hl
            have hord2 : orderedB lx2.tokens = true := orderedB_suffix hord1 hsuf2
            obtain ⟨he3, _, hrwf, hrnext, hord3⟩ := expect_full hord2 h3
            refine ⟨?_, by simp, hwf2, ?_, ?_⟩
            · have s1 : lx3.tokens <:+ lx2.tokens := by
                rw [he3]
                exact List.suffix_cons _ _
              have s2 : lx2.tokens <:+ rest := by
                rw [← hadv]
                exact hsuf2
              exact (s1.trans s2).trans (List.suffix_cons t rest)
            · intro w hw
              rw [List.head?_cons] at hw
              injection hw with hw1
              subst hw1
              rw [hadv] at hne2 hsl2
              obtain ⟨h0, hh0, hh0s⟩ := startLB_head hsl2 hne2
              have hc := orderedB_cons (htoks ▸ hord)
              have h6 := hc.2.1 h0 hh0
              have h7 := hc.1
              omega
            · intro w hw
              have h5 : left.location.end_byte ≤ rp.location.start_byte := by
                apply hao2
                rw [he3, List.head?_cons]
              have h6 := hrnext w hw
              omega
      all_goals
        simp only [] at hok
        exact absurd hok (by simp)
    all_goals
      rw [hk] at hok
      simp only [] at hok
      exact absurd hok (by simp)

theorem Location_mk_start (a b : Nat) : (Location.mk a b).start_byte = a := rfl

theorem Location_mk_end (a b : Nat) : (Location.mk a b).end_byte = b := rfl

theorem goodList_nil (tin tout : List Token) : goodList tin [] tout :=
  ⟨by simp, trivial, by simp, by simp, by simp⟩

theorem block_loop_body_spec (p : Funs) (hexpr : ExprSpec p.parse_expression)
    (hloop : LoopSpec p.block_loop) : LoopSpec (block_loop_body p) := by
  intro acc lx res lx' hord hok
  unfold block_loop_body at hok
  rw [Lexer.peek] at hok
  cases htoks : lx.tokens with
  | nil =>
    rw [htoks] at hok
    simp only [List.head?_nil] at hok
    injection hok with h1
    injection h1 with hres hlx
    subst hres
    subst hlx
    refine ⟨[], by simp, ?_, goodList_nil _ _⟩
    rw [htoks]
  | cons t rest =>
    rw [htoks] at hok
    simp only [List.head?_cons] at hok
    split at hok
    · injection hok with h1
      injection h1 with hres hlx
      subst hres
      subst hlx
      refine ⟨[], by simp, ?_, goodList_nil _ _⟩
      rw [htoks]
    · cases h2 : p.parse_expression lx with
      | error err =>
        rw [h2] at hok
        exact absurd hok (by simp)
      | ok pr2 =>
        rw [h2] at hok
        obtain ⟨expr, lx2⟩ := pr2
        simp only [] at hok
        obtain ⟨hsuf2, hne2, hwf2, hsl2, hao2⟩ := hexpr lx expr lx2 hord h2
        have hord2 := orderedB_suffix hord hsuf2
        obtain ⟨new2, hres2, hsuf3, hgl1, hgl2, hgl3, hgl4, hgl5⟩ :=
          hloop (acc ++ [expr]) lx2 res lx' hord2 hok
        rw [htoks] at hsl2 hsuf2
        refine ⟨expr :: new2, ?_, ?_, ?_, ?_, ?_, ?_, ?_⟩
        · rw [hres2]
          simp
        · exact hsuf3.trans hsuf2
        · intro b hb
          rcases List.mem_cons.mp hb with hbe | hb2
          · subst hbe
            exact hwf2
          · exact hgl1 b hb2
        · apply spanChain_cons ?_ hgl2
          intro b hb
          have hbm : b ∈ new2 := mem_of_head_eq hb
          have hne' : new2 ≠ [] := by
            intro hcon
            rw [hcon] at hb
            simp at hb
          have hlx2ne : lx2.tokens ≠ [] := hgl5 hne'
          cases hlx2 : lx2.tokens with
          | nil => exact absurd hlx2 hlx2ne
          | cons u2 r2 =>
            have hb1 : u2.location.start_byte ≤ b.location.start_byte := by
              have h5 := hgl3 b hbm
              rw [hlx2] at h5
              exact h5 u2 rfl
            have hb0 : expr.location.end_byte ≤ u2.location.start_byte := by
              apply hao2
              rw [hlx2, List.head?_cons]
            omega
        · intro b hb
          rcases List.mem_cons.mp hb with hbe | hb2
          · subst hbe
            intro w hw
            rw [List.head?_cons] at hw
            injection hw with hw1
            subst hw1
            exact hsl2 _ rfl
          · intro w hw
            rw [List.head?_cons] at hw
            injection hw with hw1
            subst hw1
            have hbs := hgl3 b hb2
            have hne' : new2 ≠ [] := by
              intro hcon
              rw [hcon] at hb2
              simp at hb2
            have hlx2ne := hgl5 hne'
            cases hlx2 : lx2.tokens with
            | nil => exact absurd hlx2 hlx2ne
            | cons u2 r2 =>
              have h5 : u2.location.start_byte ≤ b.location.start_byte := by
                have h6 := hbs
                rw [hlx2] at h6
                exact h6 u2 rfl
              have h6 : t.location.start_byte ≤ u2.location.start_byte := by
                apply ordered_suffix_head_mono (htoks ▸ hord) hsuf2 t u2 rfl
                rw [hlx2, List.head?_cons]
              omega
        · intro b hb
          rcases List.mem_cons.mp hb with hbe | hb2
          · subst hbe
            exact afterOK_suffix hord2 hao2 hsuf3
          · exact hgl4 b hb2
        · intro _
          simp

theorem parse_expr_block_body_spec (p : Funs) (hloop : LoopSpec p.block_loop) :
    ExprSpec (parse_expr_block_body p) := by
  intro lx e lx' hord hok
  unfold parse_expr_block_body at hok
  cases h1 : lx.expect (Kind.Op Operator.LeftBrace) with
  | error err =>
    rw [h1] at hok
    exact absurd hok (by simp)
  | ok pr1 =>
    rw [h1] at hok
    obtain ⟨block_start, lx1⟩ := pr1
    simp only [] at hok
    obtain ⟨he1, _, hbwf, hbnext, hord1⟩ := expect_full hord h1
    cases h2 : p.block_loop [] lx1 with
    | error err =>
      rw [h2] at hok
      exact absurd hok (by simp)
    | ok pr2 =>
      rw [h2] at hok
      obtain ⟨expressions, lx2⟩ := pr2
      simp only [] at hok
      obtain ⟨new2, hres2, hsuf2, hgl1, hgl2, hgl3, hgl4, hgl5⟩ :=
        hloop [] lx1 expressions lx2 hord1 h2
      rw [List.nil_append] at hres2
      subst hres2
      have hord2 := orderedB_suffix hord1 hsuf2
      cases h3 : lx2.expect (Kind.Op Operator.RightBrace) with
      | error err =>
        rw [h3] at hok
        exact absurd hok (by simp)
      | ok pr3 =>
        rw [h3] at hok
        obtain ⟨block_end, lx3⟩ := pr3
        simp only [] at hok
        injection hok with h4
        injection h4 with he hl
        subst he
        subst hl
        obtain ⟨he3, _, hewf, henext, hord3⟩ := expect_full hord2 h3
        have hbe_le := ordered_after_head (he1 ▸ hord) hsuf2 block_end
          (by rw [he3, List.head?_cons])
        refine ⟨?_, by rw [he1]; simp, ?_, ?_, ?_⟩
        · have s1 : lx3.tokens <:+ lx2.tokens := by
            rw [he3]
            exact List.suffix_cons _ _
          have s2 : lx1.tokens <:+ lx.tokens := by
            rw [he1]
            exact List.suffix_cons _ _
          exact (s1.trans hsuf2).trans s2
        · simp only [nodeWF, Bool.and_eq_true, decide_eq_true_eq]
          constructor
          · omega
          · rw [nodeWFList_iff]
            intro b hb
            refine ⟨?_, hgl1 b hb⟩
            rw [containsLoc_iff]
            simp only [Location_mk_start, Location_mk_end]
            constructor
            · have hne' : expressions ≠ [] := by
                intro hc
                rw [hc] at hb
                cases hb
              have hlx1ne := hgl5 hne'
              cases hlx1 : lx1.tokens with
              | nil => exact absurd hlx1 hlx1ne
              | cons u1 r1 =>
                have h5 := hgl3 b hb
                rw [hlx1] at h5
                have h6 := h5 u1 rfl
                have h7 : block_start.location.end_byte ≤ u1.location.start_byte := by
                  apply hbnext
                  rw [hlx1, List.head?_cons]
                omega
            · have h5 : b.location.end_byte ≤ block_end.location.start_byte := by
                apply hgl4 b hb
                rw [he3, List.head?_cons]
              omega
        · intro w hw
          rw [he1, List.head?_cons] at hw
          injection hw with hw1
          subst hw1
          exact Nat.le_refl _
        · intro w hw
          have h6 := henext w hw
          simpa using h6

theorem value_or_block_spec (p : Funs) (hexpr : ExprSpec p.parse_expression)
    (hblock : ExprSpec p.parse_expr_block) : ExprSpec (value_or_block p) := by
  intro lx e lx' hord hok
  unfold value_or_block at hok
  rw [Lexer.peek] at hok
  cases htoks : lx.tokens with
  | nil =>
    rw [htoks] at hok
    exact absurd hok (by simp)
  | cons t rest =>
    rw [htoks] at hok
    simp only [List.head?_cons] at hok
    split at hok
    · have hres := hblock lx e lx' hord hok
      rwa [htoks] at hres
    · have hres := hexpr lx e lx' hord hok
      rwa [htoks] at hres

theorem var_tail_spec (p : Funs) (hexpr : ExprSpec p.parse_expression)
    (hblock : ExprSpec p.parse_expr_block) (keyword : Token) (mutable : Bool) (name : String)
    (typ : Option (Expression × String)) :
    ∀ lx e lx', orderedB lx.tokens = true →
      keyword.location.start_byte ≤ keyword.location.end_byte →
      afterOK keyword.location.end_byte lx.tokens →
      (∀ tp, typ = some tp → nodeWF tp.fst = true ∧
        keyword.location.end_byte ≤ tp.fst.location.start_byte ∧
        afterOK tp.fst.location.end_byte lx.tokens) →
      var_tail p keyword mutable name typ lx = .ok (e, lx') →
      List.IsSuffix lx'.tokens lx.tokens ∧ nodeWF e = true ∧
      e.location.start_byte = keyword.location.start_byte ∧
      afterOK e.location.end_byte lx'.tokens := by
  intro lx e lx' hord hkwwf hka htyp hok
  unfold var_tail at hok
  cases h1 : lx.expect (Kind.Op Operator.Equal) with
  | error err =>
    rw [h1] at hok
    exact absurd hok (by simp)
  | ok pr1 =>
    rw [h1] at hok
    obtain ⟨eqTok, lx1⟩ := pr1
    simp only [] at hok
    obtain ⟨he1, _, heqwf, heqnext, hord1⟩ := expect_full hord h1
    cases h2 : value_or_block p lx1 with
    | error err =>
      rw [h2] at hok
      exact absurd hok (by simp)
    | ok pr2 =>
      rw [h2] at hok
      obtain ⟨value, lx2⟩ := pr2
      simp only [] at hok
      obtain ⟨hsuf2, hne2, hvwf, hsl2, hao2⟩ :=
        value_or_block_spec p hexpr hblock lx1 value lx2 hord1 h2
      have hord2 := orderedB_suffix hord1 hsuf2
      cases h3 : lx2.expect (Kind.Op Operator.SemiColon) with
      | error err =>
        rw [h3] at hok
        exact absurd hok (by simp)
      | ok pr3 =>
        rw [h3] at hok
        obtain ⟨semi, lx3⟩ := pr3
        simp only [] at hok
        injection hok with h4
        injection h4 with he hl
        subst he
        subst hl
        obtain ⟨he3, _, hswf, hsnext, hord3⟩ := expect_full hord2 h3
        obtain ⟨h0, hh0, hh0s⟩ := startLB_head hsl2 hne2
        have hkw2eq : keyword.location.end_byte ≤ eqTok.location.start_byte := by
          apply hka
          rw [he1, List.head?_cons]
        have heq2v : eqTok.location.end_byte ≤ h0.location.start_byte := heqnext h0 hh0
        have hv2s : value.location.end_byte ≤ semi.location.start_byte := by
          apply hao2
          rw [he3, List.head?_cons]
        have hvspan := nodeWF_span hvwf
        refine ⟨?_, ?_, rfl, ?_⟩
        · have s1 : lx3.tokens <:+ lx2.tokens := by
            rw [he3]
            exact List.suffix_cons _ _
          have s2 : lx1.tokens <:+ lx.tokens := by
            rw [he1]
            exact List.suffix_cons _ _
          exact (s1.trans hsuf2).trans s2
        · cases htv : typ with
          | none =>
            show nodeWF (Expression.Var mutable none name value
              (Location.mk keyword.location.start_byte value.location.end_byte)) = true
            simp only [nodeWF, Bool.and_true, Bool.and_eq_true, decide_eq_true_eq, containsLoc,
              Location_mk_start, Location_mk_end]
            refine ⟨⟨?_, ?_, ?_⟩, hvwf⟩
            · omega
            · omega
            · omega
          | some tp =>
            obtain ⟨htpw, htps, htpe⟩ := htyp tp htv
            have htp2eq : tp.fst.location.end_byte ≤ eqTok.location.start_byte := by
              apply htpe
              rw [he1, List.head?_cons]
            have htpspan := nodeWF_span htpw
            show nodeWF (Expression.Var mutable (some tp.fst) name value
              (Location.mk keyword.location.start_byte value.location.end_byte)) = true
            simp only [nodeWF, Bool.and_eq_true, decide_eq_true_eq, containsLoc,
              Location_mk_start, Location_mk_end]
            refine ⟨⟨⟨?_, ⟨?_, ?_⟩, htpw⟩, ?_, ?_⟩, hvwf⟩
            · omega
            · omega
            · omega
            · omega
            · omega
        · intro w hw
          have h6 := hsnext w hw
          show value.location.end_byte ≤ w.location.start_byte
          omega

theorem parse_variable_body_spec (p : Funs) (hexpr : ExprSpec p.parse_expression)
    (hblock : ExprSpec p.parse_expr_block) : ExprSpec (parse_variable_body p) := by
  intro lx e lx' hord hok
  unfold parse_variable_body at hok
  cases h1 : lx.expect_one_of [Kind.Var, Kind.Const] with
  | error err =>
    rw [h1] at hok
    exact absurd hok (by simp)
  | ok pr1 =>
    rw [h1] at hok
    obtain ⟨keyword, lx1⟩ := pr1
    simp only [] at hok
    obtain ⟨he1, _, hkwwf, hknext, hord1⟩ := expect_one_of_full hord h1
    cases h2 : parse_identifier lx1 with
    | error err =>
      rw [h2] at hok
      exact absurd hok (by simp)
    | ok pr2 =>
      rw [h2] at hok
      obtain ⟨pair, lx2⟩ := pr2
      simp only [] at hok
      obtain ⟨ntok, rest2, hn1, hn2, hn3⟩ := parse_identifier_spec h2
      have hc1 := orderedB_cons (hn1 ▸ hord1)
      have hord2 : orderedB lx2.tokens = true := by
        rw [hn2]
        exact hc1.2.2
      have hkw2n : keyword.location.end_byte ≤ ntok.location.start_byte := by
        apply hknext
        rw [hn1, List.head?_cons]
      rw [Lexer.peek] at hok
      cases htoks2 : lx2.tokens with
      | nil =>
        rw [htoks2] at hok
        simp only [List.head?_nil] at hok
        have hres := var_tail_spec p hexpr hblock keyword
          (match keyword.kind with | Kind.Var => true | _ => false) pair.snd none lx2 e lx'
          hord2 hkwwf (by rw [htoks2]; intro u hu; simp at hu)
          (by intro tp h; cases h) hok
        obtain ⟨hs, hw, hstart, hao⟩ := hres
        refine ⟨?_, by rw [he1]; simp, hw, ?_, hao⟩
        · have s2 : lx2.tokens <:+ lx1.tokens := by
            rw [hn1, hn2]
            exact List.suffix_cons _ _
          have s3 : lx1.tokens <:+ lx.tokens := by
            rw [he1]
            exact List.suffix_cons _ _
          exact (hs.trans s2).trans s3
        · intro w hw2
          rw [he1, List.head?_cons] at hw2
          injection hw2 with hw1
          subst hw1
          rw [hstart]
      | cons t2 r2 =>
        rw [htoks2] at hok
        simp only [List.head?_cons] at hok
        have hrest2 : rest2 = t2 :: r2 := by
          rw [← hn2, htoks2]
        have hc2 := orderedB_cons (hrest2 ▸ hc1.2.2)
        have hn2t : ntok.location.end_byte ≤ t2.location.start_byte := by
          apply hc1.2.1
          rw [hrest2, List.head?_cons]
        split at hok
        · exact absurd hok (by simp)
        · rename_i typv lxv heq
          split at heq
          · -- colon: type annotation
            cases h3 : parse_identifier lx2.advance with
            | error err2 =>
              rw [h3] at heq
              exact absurd heq (by simp)
            | ok pr3 =>
              rw [h3] at heq
              obtain ⟨tp, lx3⟩ := pr3
              simp only [] at heq
              injection heq with heq2
              injection heq2 with heqt heql
              subst heqt
              subst heql
              obtain ⟨ttok, rest3, hm1, hm2, hm3⟩ := parse_identifier_spec h3
              have hadv : lx2.advance.tokens = r2 := by
                simp [Lexer.advance, htoks2]
              have hr2 : r2 = ttok :: rest3 := by
                rw [← hadv, hm1]
              have hc3 := orderedB_cons (hr2 ▸ hc2.2.2)
              have ht2t : t2.location.end_byte ≤ ttok.location.start_byte := by
                apply hc2.2.1
                rw [hr2, List.head?_cons]
              have hord3 : orderedB lx3.tokens = true := by
                rw [hm2]
                exact hc3.2.2
              have hres := var_tail_spec p hexpr hblock keyword
                (match keyword.kind with | Kind.Var => true | _ => false) pair.snd (some tp)
                lx3 e lx' hord3 hkwwf ?hka ?htyp hok
              case hka =>
                intro u hu
                rw [hm2] at hu
                have h7 := hc3.2.1 u hu
                omega
              case htyp =>
                intro tp' htp'
                injection htp' with htp2
                subst htp2
                rw [hm3]
                refine ⟨by simpa [nodeWF] using hc3.1, ?_, ?_⟩
                · simp only [Expression.location]
                  omega
                · intro u hu
                  rw [hm2] at hu
                  have h7 := hc3.2.1 u hu
                  simp only [Expression.location]
                  omega
              obtain ⟨hs, hw, hstart, hao⟩ := hres
              refine ⟨?_, by rw [he1]; simp, hw, ?_, hao⟩
              · have s1 : lx3.tokens <:+ r2 := by
                  rw [hm2, hr2]
                  exact List.suffix_cons _ _
                have s2 : r2 <:+ lx1.tokens := by
                  rw [hn1, hrest2]
                  exact (List.suffix_cons _ _).trans (List.suffix_cons _ _)
                have s3 : lx1.tokens <:+ lx.tokens := by
                  rw [he1]
                  exact List.suffix_cons _ _
                exact ((hs.trans s1).trans s2).trans s3
              · intro w hw2
                rw [he1, List.head?_cons] at hw2
                injection hw2 with hw1
                subst hw1
                rw [hstart]
          · -- no type annotation
            injection heq with heq2
            injection heq2 with heqt heql
            subst heqt
            subst heql
            have hres := var_tail_spec p hexpr hblock keyword
              (match keyword.kind with | Kind.Var => true | _ => false) pair.snd none lx2 e lx'
              hord2 hkwwf ?hka2 (by intro tp h; cases h) hok
            case hka2 =>
              intro u hu
              rw [htoks2, List.head?_cons] at hu
              injection hu with hu1
              subst hu1
              omega
            obtain ⟨hs, hw, hstart, hao⟩ := hres
            refine ⟨?_, by rw [he1]; simp, hw, ?_, hao⟩
            · have s2 : lx2.tokens <:+ lx1.tokens := by
                rw [hn1, hn2]
                exact List.suffix_cons _ _
              have s3 : lx1.tokens <:+ lx.tokens := by
                rw [he1]
                exact List.suffix_cons _ _
              exact (hs.trans s2).trans s3
            · intro w hw2
              rw [he1, List.head?_cons] at hw2
              injection hw2 with hw1
              subst hw1
              rw [hstart]

theorem parse_assign_body_spec (p : Funs) (hexpr : ExprSpec p.parse_expression)
    (hblock : ExprSpec p.parse_expr_block) : PostSpec (parse_assign_body p) := by
  intro left lx e lx' hord hlwf hla hok
  unfold parse_assign_body at hok
  cases h1 : lx.expect (Kind.Op Operator.Equal) with
  | error err =>
    rw [h1] at hok
    exact absurd hok (by simp)
  | ok pr1 =>
    rw [h1] at hok
    obtain ⟨eqTok, lx1⟩ := pr1
    simp only [] at hok
    obtain ⟨he1, _, heqwf, heqnext, hord1⟩ := expect_full hord h1
    cases h2 : value_or_block p lx1 with
    | error err =>
      rw [h2] at hok
      exact absurd hok (by simp)
    | ok pr2 =>
      rw [h2] at hok
      obtain ⟨value, lx2⟩ := pr2
      simp only [] at hok
      obtain ⟨hsuf2, hne2, hvwf, hsl2, hao2⟩ :=
        value_or_block_spec p hexpr hblock lx1 value lx2 hord1 h2
      have hord2 := orderedB_suffix hord1 hsuf2
      cases h3 : lx2.expect (Kind.Op Operator.SemiColon) with
      | error err =>
        rw [h3] at hok
        exact absurd hok (by simp)
      | ok pr3 =>
        rw [h3] at hok
        obtain ⟨closing, lx3⟩ := pr3
        simp only [] at hok
        injection hok with h4
        injection h4 with he hl
        subst he
        subst hl
        obtain ⟨he3, _, hcwf, hcnext, hord3⟩ := expect_full hord2 h3
        obtain ⟨h0, hh0, hh0s⟩ := startLB_head hsl2 hne2
        have hl2eq : left.location.end_byte ≤ eqTok.location.start_byte := by
          apply hla
          rw [he1, List.head?_cons]
        have heq2v : eqTok.location.end_byte ≤ h0.location.start_byte := heqnext h0 hh0
        have hv2s : value.location.end_byte ≤ closing.location.start_byte := by
          apply hao2
          rw [he3, List.head?_cons]
        have hvspan := nodeWF_span hvwf
        have hlspan := nodeWF_span hlwf
        refine ⟨?_, ?_, rfl, ?_⟩
        · have s1 : lx3.tokens <:+ lx2.tokens := by
            rw [he3]
            exact List.suffix_cons _ _
          have s2 : lx1.tokens <:+ lx.tokens := by
            rw [he1]
            exact List.suffix_cons _ _
          exact (s1.trans hsuf2).trans s2
        · simp only [nodeWF, Bool.and_eq_true, decide_eq_true_eq, containsLoc,
            Location_mk_start, Location_mk_end]
          refine ⟨⟨⟨⟨?_, ?_, ?_⟩, hlwf⟩, ?_, ?_⟩, hvwf⟩
          · omega
          · omega
          · omega
          · omega
          · omega
        · intro w hw
          have h6 := hcnext w hw
          show closing.location.end_byte ≤ w.location.start_byte
          exact h6

theorem arg_loop_body_spec (p : Funs) (hexpr : ExprSpec p.parse_expression)
    (hloop : LoopSpec p.arg_loop) : LoopSpec (arg_loop_body p) := by
  intro acc lx res lx' hord hok
  unfold arg_loop_body at hok
  rw [Lexer.peek] at hok
  cases htoks : lx.tokens with
  | nil =>
    rw [htoks] at hok
    simp only [List.head?_nil] at hok
    injection hok with h1
    injection h1 with hres hlx
    subst hres
    subst hlx
    refine ⟨[], by simp, ?_, goodList_nil _ _⟩
    rw [htoks]
  | cons t rest =>
    rw [htoks] at hok
    simp only [List.head?_cons] at hok
    split at hok
    · injection hok with h1
      injection h1 with hres hlx
      subst hres
      subst hlx
      refine ⟨[], by simp, ?_, goodList_nil _ _⟩
      rw [htoks]
    · have hadv : lx.advance.tokens = rest := by
        simp [Lexer.advance, htoks]
      have hordr : orderedB lx.advance.tokens = true := by
        rw [hadv]
        exact (orderedB_cons (htoks ▸ hord)).2.2
      obtain ⟨new2, hres2, hsuf3, hgl1, hgl2, hgl3, hgl4, hgl5⟩ :=
        hloop acc lx.advance res lx' hordr hok
      rw [hadv] at hsuf3 hgl3 hgl5
      have hc := orderedB_cons (htoks ▸ hord)
      refine ⟨new2, hres2, ?_, hgl1, hgl2, ?_, hgl4, ?_⟩
      · exact hsuf3.trans (List.suffix_cons t rest)
      · intro b hb w hw
        rw [List.head?_cons] at hw
        injection hw with hw1
        subst hw1
        have hne' : new2 ≠ [] := by
          intro hc'
          rw [hc'] at hb
          cases hb
        have hrne := hgl5 hne'
        cases hrest : rest with
        | nil => exact absurd hrest hrne
        | cons u2 r2 =>
          have h5 := hgl3 b hb
          rw [hrest] at h5
          have h6 := h5 u2 rfl
          have h7 : t.location.end_byte ≤ u2.location.start_byte := by
            apply hc.2.1
            rw [hrest, List.head?_cons]
          have h8 := hc.1
          omega
      · intro _
        simp
    · cases h2 : p.parse_expression lx with
      | error err =>
        rw [h2] at hok
        exact absurd hok (by simp)
      | ok pr2 =>
        rw [h2] at hok
        obtain ⟨arg, lx2⟩ := pr2
        simp only [] at hok
        obtain ⟨hsuf2, hne2, hwf2, hsl2, hao2⟩ := hexpr lx arg lx2 hord h2
        have hord2 := orderedB_suffix hord hsuf2
        obtain ⟨new2, hres2, hsuf3, hgl1, hgl2, hgl3, hgl4, hgl5⟩ :=
          hloop (acc ++ [arg]) lx2 res lx' hord2 hok
        rw [htoks] at hsl2 hsuf2
        refine ⟨arg :: new2, ?_, ?_, ?_, ?_, ?_, ?_, ?_⟩
        · rw [hres2]
          simp
        · exact hsuf3.trans hsuf2
        · intro b hb
          rcases List.mem_cons.mp hb with hbe | hb2
          · subst hbe
            exact hwf2
          · exact hgl1 b hb2
        · apply spanChain_cons ?_ hgl2
          intro b hb
          have hbm : b ∈ new2 := mem_of_head_eq hb
          have hne' : new2 ≠ [] := by
            intro hcon
            rw [hcon] at hb
            simp at hb
          have hlx2ne : lx2.tokens ≠ [] := hgl5 hne'
          cases hlx2 : lx2.tokens with
          | nil => exact absurd hlx2 hlx2ne
          | cons u2 r2 =>
            have hb1 : u2.location.start_byte ≤ b.location.start_byte := by
              have h5 := hgl3 b hbm
              rw [hlx2] at h5
              exact h5 u2 rfl
            have hb0 : arg.location.end_byte ≤ u2.location.start_byte := by
              apply hao2
              rw [hlx2, List.head?_cons]
            omega
        · intro b hb
          rcases List.mem_cons.mp hb with hbe | hb2
          · subst hbe
            intro w hw
            rw [List.head?_cons] at hw
            injection hw with hw1
            subst hw1
            exact hsl2 _ rfl
          · intro w hw
            rw [List.head?_cons] at hw
            injection hw with hw1
            subst hw1
            have hbs := hgl3 b hb2
            have hne' : new2 ≠ [] := by
              intro hcon
              rw [hcon] at hb2
              simp at hb2
            have hlx2ne := hgl5 hne'
            cases hlx2 : lx2.tokens with
            | nil => exact absurd hlx2 hlx2ne
            | cons u2 r2 =>
              have h5 : u2.location.start_byte ≤ b.location.start_byte := by
                have h6 := hbs
                rw [hlx2] at h6
                exact h6 u2 rfl
              have h6 : t.location.start_byte ≤ u2.location.start_byte := by
                apply ordered_suffix_head_mono (htoks ▸ hord) hsuf2 t u2 rfl
                rw [hlx2, List.head?_cons]
              omega
        · intro b hb
          rcases List.mem_cons.mp hb with hbe | hb2
          · subst hbe
            exact afterOK_suffix hord2 hao2 hsuf3
          · exact hgl4 b hb2
        · intro _
          simp

theorem parse_fun_call_body_spec (p : Funs) (hloop : LoopSpec p.arg_loop) :
    PostSpec (parse_fun_call_body p) := by
  intro left lx e lx' hord hlwf hla hok
  unfold parse_fun_call_body at hok
  cases h1 : lx.expect (Kind.Op Operator.LeftParen) with
  | error err =>
    rw [h1] at hok
    exact absurd hok (by simp)
  | ok pr1 =>
    rw [h1] at hok
    obtain ⟨lp, lx1⟩ := pr1
    simp only [] at hok
    obtain ⟨he1, _, hlpwf, hlpnext, hord1⟩ := expect_full hord h1
    cases h2 : p.arg_loop [] lx1 with
    | error err =>
      rw [h2] at hok
      exact absurd hok (by simp)
    | ok pr2 =>
      rw [h2] at hok
      obtain ⟨arguments, lx2⟩ := pr2
      simp only [] at hok
      obtain ⟨new2, hres2, hsuf2, hgl1, hgl2, hgl3, hgl4, hgl5⟩ :=
        hloop [] lx1 arguments lx2 hord1 h2
      rw [List.nil_append] at hres2
      subst hres2
      have hord2 := orderedB_suffix hord1 hsuf2
      cases h3 : lx2.expect (Kind.Op Operator.RightParen) with
      | error err =>
        rw [h3] at hok
        exact absurd hok (by simp)
      | ok pr3 =>
        rw [h3] at hok
        obtain ⟨close_paren, lx3⟩ := pr3
        simp only [] at hok
        injection hok with h4
        injection h4 with he hl
        subst he
        subst hl
        obtain ⟨he3, _, hcpwf, hcpnext, hord3⟩ := expect_full hord2 h3
        have hl2lp : left.location.end_byte ≤ lp.location.start_byte := by
          apply hla
          rw [he1, List.head?_cons]
        have hlp2cp := ordered_after_head (he1 ▸ hord) hsuf2 close_paren
          (by rw [he3, List.head?_cons])
        have hlspan := nodeWF_span hlwf
        refine ⟨?_, ?_, rfl, ?_⟩
        · have s1 : lx3.tokens <:+ lx2.tokens := by
            rw [he3]
            exact List.suffix_cons _ _
          have s2 : lx1.tokens <:+ lx.tokens := by
            rw [he1]
            exact List.suffix_cons _ _
          exact (s1.trans hsuf2).trans s2
        · simp only [nodeWF, Bool.and_eq_true, decide_eq_true_eq, containsLoc,
            Location_mk_start, Location_mk_end]
          refine ⟨⟨⟨?_, ?_, ?_⟩, hlwf⟩, ?_⟩
          · omega
          · omega
          · omega
          · rw [nodeWFList_iff]
            intro b hb
            refine ⟨?_, hgl1 b hb⟩
            rw [containsLoc_iff]
            simp only [Location_mk_start, Location_mk_end]
            have hb2cp : b.location.end_byte ≤ close_paren.location.start_byte := by
              apply hgl4 b hb
              rw [he3, List.head?_cons]
            constructor
            · have hne' : arguments ≠ [] := by
                intro hcon
                rw [hcon] at hb
                cases hb
              have hlx1ne := hgl5 hne'
              cases hlx1 : lx1.tokens with
              | nil => exact absurd hlx1 hlx1ne
              | cons u1 r1 =>
                have h5 := hgl3 b hb
                rw [hlx1] at h5
                have h6 := h5 u1 rfl
                have h7 : lp.location.end_byte ≤ u1.location.start_byte := by
                  apply hlpnext
                  rw [hlx1, List.head?_cons]
                omega
            · omega
        · intro w hw
          have h6 := hcpnext w hw
          show close_paren.location.end_byte ≤ w.location.start_byte
          exact h6

theorem climb_body_spec (p : Funs) (hwp : ∀ minp, ExprSpec (p.parse_with_precedence minp))
    (hclimb : ∀ minp, PostSpec (p.climb minp)) : ∀ minp, PostSpec (climb_body p minp) := by
  intro minp left lx e lx' hord hlwf hla hok
  unfold climb_body at hok
  rw [Lexer.peek] at hok
  cases htoks : lx.tokens with
  | nil =>
    rw [htoks] at hok
    simp only [List.head?_nil] at hok
    injection hok with h1
    injection h1 with he hl
    subst he
    subst hl
    refine ⟨?_, hlwf, rfl, hla⟩
    rw [htoks]
  | cons next rest =>
    rw [htoks] at hok
    simp only [List.head?_cons] at hok
    split at hok
    · rename_i operator hkind
      by_cases hbin : (Kind.Op operator).is_binary_op = true
      · rw [if_pos hbin] at hok
        by_cases hprec : get_precedence operator ≤ minp
        · rw [if_pos hprec] at hok
          injection hok with h1
          injection h1 with he hl
          subst he
          subst hl
          refine ⟨?_, hlwf, rfl, hla⟩
          rw [htoks]
        · rw [if_neg hprec] at hok
          have hadv : lx.advance.tokens = rest := by
            simp [Lexer.advance, htoks]
          cases h2 : p.parse_with_precedence (get_precedence operator) lx.advance with
          | error err =>
            rw [h2] at hok
            exact absurd hok (by simp)
          | ok pr2 =>
            rw [h2] at hok
            obtain ⟨right, lx2⟩ := pr2
            simp only [] at hok
            have hordr : orderedB lx.advance.tokens = true := by
              rw [hadv]
              exact (orderedB_cons (htoks ▸ hord)).2.2
            obtain ⟨hsuf2, hne2, hrwf, hsl2, hao2⟩ :=
              hwp (get_precedence operator) lx.advance right lx2 hordr h2
            have hord2 := orderedB_suffix hordr hsuf2
            have hc := orderedB_cons (htoks ▸ hord)
            rw [hadv] at hne2 hsl2 hsuf2
            obtain ⟨h0, hh0, hh0s⟩ := startLB_head hsl2 hne2
            have hl2n : left.location.end_byte ≤ next.location.start_byte := by
              apply hla
              rw [htoks, List.head?_cons]
            have hn2h0 := hc.2.1 h0 hh0
            have hlspan := nodeWF_span hlwf
            have hrspan := nodeWF_span hrwf
            have hnodeWF : nodeWF (Expression.BinaryOp left operator right
                (Location.mk left.location.start_byte right.location.end_byte)) = true := by
              simp only [nodeWF, Bool.and_eq_true, decide_eq_true_eq, containsLoc,
                Location_mk_start, Location_mk_end]
              refine ⟨⟨⟨⟨?_, ?_, ?_⟩, hlwf⟩, ?_, ?_⟩, hrwf⟩
              · omega
              · omega
              · omega
              · omega
              · omega
            have hafter : afterOK (Expression.BinaryOp left operator right
                (Location.mk left.location.start_byte right.location.end_byte)).location.end_byte
                lx2.tokens := by
              intro u hu
              exact hao2 u hu
            obtain ⟨hs3, hw3, hstart3, hao3⟩ :=
              hclimb minp (Expression.BinaryOp left operator right
                (Location.mk left.location.start_byte right.location.end_byte)) lx2 e lx'
                hord2 hnodeWF hafter hok
            refine ⟨hs3.trans ?_, hw3, ?_, hao3⟩
            · exact hsuf2.trans (List.suffix_cons next rest)
            · exact hstart3
      · rw [if_neg hbin] at hok
        injection hok with h1
        injection h1 with he hl
        subst he
        subst hl
        refine ⟨?_, hlwf, rfl, hla⟩
        rw [htoks]
    · injection hok with h1
      injection h1 with he hl
      subst he
      subst hl
      refine ⟨?_, hlwf, rfl, hla⟩
      rw [htoks]

theorem parse_with_precedence_body_spec (p : Funs)
    (hop : ExprSpec p.parse_operation) (hret : ExprSpec p.parse_return_expression)
    (hif : ExprSpec p.parse_if_expression) (hfc : PostSpec p.parse_fun_call)
    (has : PostSpec p.parse_assign) (hclimb : ∀ minp, PostSpec (p.climb minp)) :
    ∀ minp, ExprSpec (parse_with_precedence_body p minp) := by
  intro minp lx e lx' hord hok
  unfold parse_with_precedence_body at hok
  rw [Lexer.peek] at hok
  cases htoks : lx.tokens with
  | nil =>
    rw [htoks] at hok
    simp only [List.head?_nil] at hok
    exact absurd hok (by simp)
  | cons t rest =>
    rw [htoks] at hok
    simp only [List.head?_cons] at hok
    split at hok
    · exact absurd hok (by simp)
    · rename_i left lx1 heq
      have hleft : List.IsSuffix lx1.tokens lx.tokens ∧ lx.tokens ≠ [] ∧ nodeWF left = true ∧
          startLB lx.tokens left.location.start_byte ∧
          afterOK left.location.end_byte lx1.tokens := by
        split at heq
        · exact parse_value_spec lx left lx1 hord heq
        · exact hop lx left lx1 hord heq
        · exact hret lx left lx1 hord heq
        · exact hif lx left lx1 hord heq
        · exact absurd heq (by simp)
      obtain ⟨hsuf1, hne1, hlwf, hsl1, hao1⟩ := hleft
      have hord1 := orderedB_suffix hord hsuf1
      rw [htoks] at hsuf1 hsl1
      split at hok
      · rename_i nm loc
        rw [Lexer.peek] at hok
        cases htoks1 : lx1.tokens with
        | nil =>
          rw [htoks1] at hok
          simp only [List.head?_nil] at hok
          obtain ⟨hs, hw, hstart, hao⟩ :=
            hclimb minp (Expression.Ident nm loc) lx1 e lx' hord1 hlwf hao1 hok
          refine ⟨hs.trans hsuf1, by simp, hw, ?_, hao⟩
          intro w hw2
          rw [List.head?_cons] at hw2
          injection hw2 with hw1
          subst hw1
          rw [hstart]
          exact hsl1 _ rfl
        | cons t1 rest1 =>
          rw [htoks1] at hok
          simp only [List.head?_cons] at hok
          split at hok
          · obtain ⟨hs, hw, hstart, hao⟩ :=
              hfc (Expression.Ident nm loc) lx1 e lx' hord1 hlwf hao1 hok
            refine ⟨hs.trans hsuf1, by simp, hw, ?_, hao⟩
            intro w hw2
            rw [List.head?_cons] at hw2
            injection hw2 with hw1
            subst hw1
            rw [hstart]
            exact hsl1 _ rfl
          · obtain ⟨hs, hw, hstart, hao⟩ :=
              has (Expression.Ident nm loc) lx1 e lx' hord1 hlwf hao1 hok
            refine ⟨hs.trans hsuf1, by simp, hw, ?_, hao⟩
            intro w hw2
            rw [List.head?_cons] at hw2
            injection hw2 with hw1
            subst hw1
            rw [hstart]
            exact hsl1 _ rfl
          · obtain ⟨hs, hw, hstart, hao⟩ :=
              hclimb minp (Expression.Ident nm loc) lx1 e lx' hord1 hlwf hao1 hok
            refine ⟨hs.trans hsuf1, by simp, hw, ?_, hao⟩
            intro w hw2
            rw [List.head?_cons] at hw2
            injection hw2 with hw1
            subst hw1
            rw [hstart]
            exact hsl1 _ rfl
      · obtain ⟨hs, hw, hstart, hao⟩ := hclimb minp left lx1 e lx' hord1 hlwf hao1 hok
        refine ⟨hs.trans hsuf1, by simp, hw, ?_, hao⟩
        intro w hw2
        rw [List.head?_cons] at hw2
        injection hw2 with hw1
        subst hw1
        rw [hstart]
        exact hsl1 _ rfl

theorem getLast_mem_own {α : Type} : ∀ {l : List α} {z : α}, l.getLast? = some z → z ∈ l := by
  intro l
  induction l with
  | nil =>
    intro z hz
    simp at hz
  | cons a l' ih =>
    intro z hz
    cases l' with
    | nil =>
      have haz : a = z := by
        simpa using hz
      subst haz
      exact List.mem_cons_self _ _
    | cons b r =>
      rw [List.getLast?_cons_cons] at hz
      exact List.mem_cons_of_mem a (ih hz)

theorem else_loop_body_spec (p : Funs) (hif : ExprSpec p.parse_if_expression)
    (hblock : ExprSpec p.parse_expr_block) (hloop : LoopSpec p.else_loop) :
    LoopSpec (else_loop_body p) := by
  intro acc lx res lx' hord hok
  unfold else_loop_body at hok
  rw [Lexer.peek] at hok
  cases htoks : lx.tokens with
  | nil =>
    rw [htoks] at hok
    simp only [List.head?_nil] at hok
    injection hok with h1
    injection h1 with hres hlx
    subst hres
    subst hlx
    refine ⟨[], by simp, ?_, goodList_nil _ _⟩
    rw [htoks]
  | cons t rest =>
    rw [htoks] at hok
    simp only [List.head?_cons] at hok
    have hc := orderedB_cons (htoks ▸ hord)
    split at hok
    · -- else keyword consumed
      rw [Lexer.peek] at hok
      have hadv : lx.advance.tokens = rest := by
        simp [Lexer.advance, htoks]
      rw [hadv] at hok
      have hordr : orderedB rest = true := hc.2.2
      cases rest with
      | nil =>
        simp only [List.head?_nil] at hok
        cases h2 : p.parse_expr_block lx.advance with
        | error err =>
          rw [h2] at hok
          exact absurd hok (by simp)
        | ok pr2 =>
          obtain ⟨eb, lxb⟩ := pr2
          obtain ⟨_, hne2, _, _, _⟩ := hblock lx.advance eb lxb (by rw [hadv]; rfl) h2
          rw [hadv] at hne2
          exact absurd rfl hne2
      | cons t2 r2 =>
        simp only [List.head?_cons] at hok
        have hc2 := orderedB_cons hordr
        split at hok
        · -- else if: recurse into parse_if_expression
          cases h2 : p.parse_if_expression lx.advance with
          | error err =>
            rw [h2] at hok
            exact absurd hok (by simp)
          | ok pr2 =>
            rw [h2] at hok
            obtain ⟨else_if, lxi⟩ := pr2
            simp only [] at hok
            have hordadv : orderedB lx.advance.tokens = true := by
              rw [hadv]
              exact hordr
            obtain ⟨hsuf2, hne2, hwf2, hsl2, hao2⟩ := hif lx.advance else_if lxi hordadv h2
            rw [hadv] at hsuf2 hsl2 hne2
            have hord2 := orderedB_suffix hordr hsuf2
            obtain ⟨new2, hres2, hsuf3, hgl1, hgl2, hgl3, hgl4, hgl5⟩ :=
              hloop (acc ++ [else_if]) lxi res lx' hord2 hok
            refine ⟨else_if :: new2, ?_, ?_, ?_, ?_, ?_, ?_, ?_⟩
            · rw [hres2]
              simp
            · exact (hsuf3.trans hsuf2).trans (List.suffix_cons t (t2 :: r2))
            · intro b hb
              rcases List.mem_cons.mp hb with hbe | hb2
              · subst hbe
                exact hwf2
              · exact hgl1 b hb2
            · apply spanChain_cons ?_ hgl2
              intro b hb
              have hbm : b ∈ new2 := mem_of_head_eq hb
              have hne' : new2 ≠ [] := by
                intro hcon
                rw [hcon] at hb
                simp at hb
              have hlxine : lxi.tokens ≠ [] := hgl5 hne'
              cases hlxi : lxi.tokens with
              | nil => exact absurd hlxi hlxine
              | cons u2 r3 =>
                have hb1 : u2.location.start_byte ≤ b.location.start_byte := by
                  have h5 := hgl3 b hbm
                  rw [hlxi] at h5
                  exact h5 u2 rfl
                have hb0 : else_if.location.end_byte ≤ u2.location.start_byte := by
                  apply hao2
                  rw [hlxi, List.head?_cons]
                omega
            · intro b hb
              rcases List.mem_cons.mp hb with hbe | hb2
              · subst hbe
                intro w hw
                rw [List.head?_cons] at hw
                injection hw with hw1
                subst hw1
                have h5 := hsl2 t2 rfl
                have h6 := hc.2.1 t2 rfl
                have h7 := hc.1
                omega
              · intro w hw
                rw [List.head?_cons] at hw
                injection hw with hw1
                subst hw1
                have hne' : new2 ≠ [] := by
                  intro hcon
                  rw [hcon] at hb2
                  simp at hb2
                have hlxine := hgl5 hne'
                cases hlxi : lxi.tokens with
                | nil => exact absurd hlxi hlxine
                | cons u2 r3 =>
                  have h5 : u2.location.start_byte ≤ b.location.start_byte := by
                    have h6 := hgl3 b hb2
                    rw [hlxi] at h6
                    exact h6 u2 rfl
                  have h6 : t.location.start_byte ≤ u2.location.start_byte := by
                    apply ordered_suffix_head_mono (htoks ▸ hord)
                      (hsuf2.trans (List.suffix_cons t (t2 :: r2))) t u2 rfl
                    rw [hlxi, List.head?_cons]
                  omega
            · intro b hb
              rcases List.mem_cons.mp hb with hbe | hb2
              · subst hbe
                exact afterOK_suffix hord2 hao2 hsuf3
              · exact hgl4 b hb2
            · intro _
              simp
        · -- terminal else block
          cases h2 : p.parse_expr_block lx.advance with
          | error err =>
            rw [h2] at hok
            exact absurd hok (by simp)
          | ok pr2 =>
            rw [h2] at hok
            obtain ⟨eb, lxb⟩ := pr2
            simp only [] at hok
            injection hok with h1
            injection h1 with hres hlx
            subst hres
            subst hlx
            have hordadv : orderedB lx.advance.tokens = true := by
              rw [hadv]
              exact hordr
            obtain ⟨hsuf2, hne2, hwf2, hsl2, hao2⟩ := hblock lx.advance eb lxb hordadv h2
            rw [hadv] at hsuf2 hsl2
            refine ⟨[eb], rfl, ?_, ?_, trivial, ?_, ?_, ?_⟩
            · exact hsuf2.trans (List.suffix_cons t (t2 :: r2))
            · intro b hb
              have hbe : b = eb := by simpa using hb
              subst hbe
              exact hwf2
            · intro b hb
              have hbe : b = eb := by simpa using hb
              subst hbe
              intro w hw
              rw [List.head?_cons] at hw
              injection hw with hw1
              subst hw1
              have h5 := hsl2 t2 rfl
              have h6 := hc.2.1 t2 rfl
              have h7 := hc.1
              omega
            · intro b hb
              have hbe : b = eb := by simpa using hb
              subst hbe
              exact hao2
            · intro _
              simp
    · injection hok with h1
      injection h1 with hres hlx
      subst hres
      subst hlx
      refine ⟨[], by simp, ?_, goodList_nil _ _⟩
      rw [htoks]

theorem parse_if_expression_body_spec (p : Funs) (hexpr : ExprSpec p.parse_expression)
    (hblock : ExprSpec p.parse_expr_block) (hloop : LoopSpec p.else_loop) :
    ExprSpec (parse_if_expression_body p) := by
  intro lx e lx' hord hok
  unfold parse_if_expression_body at hok
  cases h1 : lx.expect Kind.If with
  | error err =>
    rw [h1] at hok
    exact absurd hok (by simp)
  | ok pr1 =>
    rw [h1] at hok
    obtain ⟨keyword, lx1⟩ := pr1
    simp only [] at hok
    obtain ⟨he1, _, hkwf, hknext, hord1⟩ := expect_full hord h1
    cases h2 : p.parse_expression lx1 with
    | error err =>
      rw [h2] at hok
      exact absurd hok (by simp)
    | ok pr2 =>
      rw [h2] at hok
      obtain ⟨condition, lx2⟩ := pr2
      simp only [] at hok
      obtain ⟨hsufC, hneC, hwfC, hslC, haoC⟩ := hexpr lx1 condition lx2 hord1 h2
      have hord2 := orderedB_suffix hord1 hsufC
      cases h3 : p.parse_expr_block lx2 with
      | error err =>
        rw [h3] at hok
        exact absurd hok (by simp)
      | ok pr3 =>
        rw [h3] at hok
        obtain ⟨body, lx3⟩ := pr3
        simp only [] at hok
        obtain ⟨hsufB, hneB, hwfB, hslB, haoB⟩ := hblock lx2 body lx3 hord2 h3
        have hord3 := orderedB_suffix hord2 hsufB
        cases h4 : p.else_loop [] lx3 with
        | error err =>
          rw [h4] at hok
          exact absurd hok (by simp)
        | ok pr4 =>
          rw [h4] at hok
          obtain ⟨falsy, lx4⟩ := pr4
          simp only [] at hok
          injection hok with h5
          injection h5 with he hl
          subst he
          subst hl
          obtain ⟨new4, hres4, hsuf4, hgl1, hgl2, hgl3, hgl4, hgl5⟩ :=
            hloop [] lx3 falsy lx4 hord3 h4
          rw [List.nil_append] at hres4
          subst hres4
          obtain ⟨h0C, hh0C, hh0Cs⟩ := startLB_head hslC hneC
          obtain ⟨h0B, hh0B, hh0Bs⟩ := startLB_head hslB hneB
          have hkw2c : keyword.location.end_byte ≤ h0C.location.start_byte := hknext h0C hh0C
          have hc2b : condition.location.end_byte ≤ h0B.location.start_byte := haoC h0B hh0B
          have hcspan := nodeWF_span hwfC
          have hbspan := nodeWF_span hwfB
          refine ⟨?_, by rw [he1]; simp, ?_, ?_, ?_⟩
          · have s1 : lx1.tokens <:+ lx.tokens := by
              rw [he1]
              exact List.suffix_cons _ _
            exact ((hsuf4.trans hsufB).trans hsufC).trans s1
          · cases hlast : falsy.getLast? with
            | none =>
              have hfn : falsy = [] := by simpa using hlast
              subst hfn
              show nodeWF (Expression.If condition body []
                (Location.mk keyword.location.start_byte body.location.end_byte)) = true
              simp only [nodeWF, nodeWFList, Bool.and_true, Bool.and_eq_true,
                decide_eq_true_eq, containsLoc, Location_mk_start, Location_mk_end]
              refine ⟨⟨⟨⟨?_, ?_, ?_⟩, hwfC⟩, ?_, ?_⟩, hwfB⟩
              · omega
              · omega
              · omega
              · omega
              · omega
            | some z =>
              have hzmem : z ∈ falsy := getLast_mem_own hlast
              have hzwf := hgl1 z hzmem
              have hzspan := nodeWF_span hzwf
              have hfne : falsy ≠ [] := by
                intro hcon
                rw [hcon] at hlast
                simp at hlast
              have hlx3ne := hgl5 hfne
              cases hlx3 : lx3.tokens with
              | nil => exact absurd hlx3 hlx3ne
              | cons u3 r3 =>
                have hzs : u3.location.start_byte ≤ z.location.start_byte := by
                  have h6 := hgl3 z hzmem
                  rw [hlx3] at h6
                  exact h6 u3 rfl
                have hb2u3 : body.location.end_byte ≤ u3.location.start_byte := by
                  apply haoB
                  rw [hlx3, List.head?_cons]
                show nodeWF (Expression.If condition body falsy
                  (Location.mk keyword.location.start_byte z.location.end_byte)) = true
                simp only [nodeWF, Bool.and_eq_true, decide_eq_true_eq, containsLoc,
                  Location_mk_start, Location_mk_end]
                refine ⟨⟨⟨⟨⟨?_, ?_, ?_⟩, hwfC⟩, ?_, ?_⟩, hwfB⟩, ?_⟩
                · omega
                · omega
                · omega
                · omega
                · omega
                · rw [nodeWFList_iff]
                  intro b hb
                  have hbwf := hgl1 b hb
                  have hbspan2 := nodeWF_span hbwf
                  have hbs : u3.location.start_byte ≤ b.location.start_byte := by
                    have h6 := hgl3 b hb
                    rw [hlx3] at h6
                    exact h6 u3 rfl
                  have hb2z : b.location.end_byte ≤ z.location.end_byte := by
                    apply spanChain_last_le falsy hgl2 ?_ b hb z hlast
                    intro c hc2
                    exact nodeWF_span (hgl1 c hc2)
                  refine ⟨?_, hbwf⟩
                  rw [containsLoc_iff]
                  simp only [Location_mk_start, Location_mk_end]
                  constructor
                  · omega
                  · omega
          · intro w hw
            rw [he1, List.head?_cons] at hw
            injection hw with hw1
            subst hw1
            exact Nat.le_refl _
          · intro w hw
            cases hlast : falsy.getLast? with
            | none =>
              have hash : afterOK body.location.end_byte lx4.tokens :=
                afterOK_suffix hord3 haoB hsuf4
              have h6 := hash w hw
              show body.location.end_byte ≤ w.location.start_byte
              exact h6
            | some z =>
              have hzmem : z ∈ falsy := getLast_mem_own hlast
              have h6 := hgl4 z hzmem w hw
              show z.location.end_byte ≤ w.location.start_byte
              exact h6

/-- Fuel exhaustion never returns success, so every routine of the
fuel-zero record meets its specification vacuously. -/
theorem funsSpec_outOfFuel : FunsSpec outOfFuel := by
  refine ⟨?_, ?_, ?_, ?_, ?_, ?_, ?_, ?_, ?_, ?_, ?_, ?_, ?_⟩
  · intro lx e lx' _ hok; exact Except.noConfusion hok
  · intro lx e lx' _ hok; exact Except.noConfusion hok
  · intro acc lx res lx' _ hok; exact Except.noConfusion hok
  · intro lx e lx' _ hok; exact Except.noConfusion hok
  · intro lx e lx' _ hok; exact Except.noConfusion hok
  · intro acc lx res lx' _ hok; exact Except.noConfusion hok
  · intro lx e lx' _ hok; exact Except.noConfusion hok
  · intro left lx e lx' _ _ _ hok; exact Except.noConfusion hok
  · intro acc lx res lx' _ hok; exact Except.noConfusion hok
  · intro left lx e lx' _ _ _ hok; exact Except.noConfusion hok
  · intro minp lx e lx' _ hok; exact Except.noConfusion hok
  · intro minp left lx e lx' _ _ _ hok; exact Except.noConfusion hok
  · intro lx e lx' _ hok; exact Except.noConfusion hok

/-- Master induction on the fuel: every level of the tied-knot record meets
the full specification, so every successful parse satisfies the suffix,
well-formedness and span properties. -/
theorem funs_spec (n : Nat) : FunsSpec (mkFuns n) := by
  induction n with
  | zero => exact funsSpec_outOfFuel
  | succ n ih =>
    obtain ⟨he, hb, hbl, hv, hi, hel, ho, hfc, hal, has, hwp, hcl, hret⟩ := ih
    exact ⟨parse_expression_body_spec _ hv hwp,
      parse_expr_block_body_spec _ hbl,
      block_loop_body_spec _ he hbl,
      parse_variable_body_spec _ he hb,
      parse_if_expression_body_spec _ he hb hel,
      else_loop_body_spec _ hi hb hel,
      parse_operation_body_spec _ hwp,
      parse_fun_call_body_spec _ hal,
      arg_loop_body_spec _ he hal,
      parse_assign_body_spec _ he hb,
      parse_with_precedence_body_spec _ ho hret hi hfc has hcl,
      climb_body_spec _ hwp hcl,
      parse_return_expression_body_spec _ he⟩

/-- C6: location invariant.  On any well-lexed token stream (well-formed,
non-overlapping token spans), every expression tree returned by a successful
`parse_expression` is node well formed: every node's `Location` has
`start_byte ≤ end_byte`, and the `Location` range of a composite node
contains the range of each of its children (`nodeWF`, checked recursively at
every node). -/
theorem c6_location_invariant (fuel : Nat) (lx : Lexer) (e : Expression) (lx' : Lexer)
    (hord : orderedB lx.tokens = true)
    (hok : parse_expression fuel lx = .ok (e, lx')) : nodeWF e = true :=
  ((funs_spec fuel).1 lx e lx' hord hok).2.2.1

/-- C6 witness: the invariant instantiated on the parse of `"1 + 2 * 3"`. -/
theorem c6_location_invariant_witness : nodeWF tree_1p2t3 = true :=
  c6_location_invariant 32 lex_1p2t3 tree_1p2t3 (Lexer.mk [] "1 + 2 * 3")
    (by decide) (by rfl)

/-- C10: a parenthesized group returns the inner expression unchanged.  At
any fuel level, when `parse_operation` sees an opening parenthesis it
consumes it, parses the inner expression at the base strength, then consumes
a closing parenthesis via `expect`, and the expression it returns is exactly
the inner parse's node — no wrapper is added and no location is rewritten,
so no node records the parentheses' bytes.  Concretely, `"(1 + 2)"` parses
to the bare `1 + 2` node spanning bytes 1 to 6, inside the parentheses. -/
theorem c10_parenthesized_group (p : Funs) (lx : Lexer) (t : Token) (e : Expression)
    (lx' : Lexer) (hpk : lx.peek = some t) (hlp : t.kind = Kind.Op Operator.LeftParen)
    (hok : parse_operation_body p lx = .ok (e, lx')) :
    (∃ lx2 rp, p.parse_with_precedence precedences.BASE lx.advance = .ok (e, lx2) ∧
      lx2.expect (Kind.Op Operator.RightParen) = .ok (rp, lx')) ∧
    parse_expression 32 lex_paren12 = .ok (tree_paren12, Lexer.mk [] "(1 + 2)") ∧
    tree_paren12.location = Location.mk 1 6 := by
  refine ⟨?_, by rfl, rfl⟩
  unfold parse_operation_body at hok
  rw [hpk] at hok
  simp only [] at hok
  rw [hlp] at hok
  simp only [] at hok
  cases h2 : p.parse_with_precedence precedences.BASE lx.advance with
  | error err => rw [h2] at hok; exact Except.noConfusion hok
  | ok pr2 =>
    obtain ⟨left, lx2⟩ := pr2
    rw [h2] at hok
    simp only [] at hok
    cases h3 : lx2.expect (Kind.Op Operator.RightParen) with
    | error err => rw [h3] at hok; exact Except.noConfusion hok
    | ok pr3 =>
      obtain ⟨rp, lx3⟩ := pr3
      rw [h3] at hok
      simp only [] at hok
      injection hok with hok2
      injection hok2 with h4 h5
      subst h4
      subst h5
      exact ⟨lx2, rp, rfl, h3⟩

/-- C10 witness: the parenthesized-group theorem instantiated on the parse
of `"(1 + 2)"`, inner routines taken at fuel 31. -/
theorem c10_parenthesized_group_witness :
    (∃ lx2 rp, (mkFuns 31).parse_with_precedence precedences.BASE lex_paren12.advance =
        .ok (tree_paren12, lx2) ∧
      lx2.expect (Kind.Op Operator.RightParen) = .ok (rp, Lexer.mk [] "(1 + 2)")) ∧
    parse_expression 32 lex_paren12 = .ok (tree_paren12, Lexer.mk [] "(1 + 2)") ∧
    tree_paren12.location = Location.mk 1 6 :=
  c10_parenthesized_group (mkFuns 31) lex_paren12 (otok Operator.LeftParen 0 1) tree_paren12
    (Lexer.mk [] "(1 + 2)") rfl rfl (by rfl)

theorem litTop_precWF {e : Expression} (h : litTop e = true) : precWF e = true := by
  cases e <;> first | rfl | exact absurd h (by simp [litTop])

theorem litTop_not_bin {e : Expression} (h : litTop e = true) (l : Expression) (op : Operator)
    (r : Expression) (loc : Location) (he : e = Expression.BinaryOp l op r loc) : False := by
  subst he
  simp [litTop] at h

theorem parse_value_flat {lx : Lexer} {e : Expression} {lx' : Lexer}
    (hflat : lx.tokens.all flatTok = true) (hok : parse_value lx = .ok (e, lx')) :
    litTop e = true ∧
      ∃ t rest, lx.tokens = t :: rest ∧ lx'.tokens = rest ∧ e.location = t.location := by
  unfold parse_value at hok
  rw [Lexer.peek] at hok
  cases htoks : lx.tokens with
  | nil =>
    rw [htoks] at hok
    exact absurd hok (by simp)
  | cons t rest =>
    rw [htoks] at hok
    simp only [List.head?_cons] at hok
    have hft : flatTok t = true := by
      have h := hflat
      rw [htoks] at h
      simp only [List.all_cons, Bool.and_eq_true] at h
      exact h.1
    obtain ⟨tkind, tloc⟩ := t
    cases tkind with
    | Value v =>
      cases v with
      | Primitive prim =>
        simp only [] at hok
        obtain ⟨t2, rest2, ht2, hl2, hel, hshape⟩ := parse_primitive_spec hok
        refine ⟨?_, t2, rest2, htoks ▸ ht2, hl2, hel⟩
        obtain ⟨a, b, he⟩ | ⟨a, b, he⟩ | ⟨a, b, he⟩ | ⟨a, he⟩ := hshape <;> subst he <;> rfl
      | Ident n => simp [flatTok] at hft
      | Unsupported d => simp [flatTok] at hft
    | Op op => exact absurd hok (by simp)
    | Var => exact absurd hok (by simp)
    | Const => exact absurd hok (by simp)
    | If => exact absurd hok (by simp)
    | Else => exact absurd hok (by simp)
    | Return => exact absurd hok (by simp)

theorem parse_operation_body_flat (p : Funs) : FlatOpNever (parse_operation_body p) := by
  intro lx e lx' hflat hok
  unfold parse_operation_body at hok
  rw [Lexer.peek] at hok
  cases htoks : lx.tokens with
  | nil =>
    rw [htoks] at hok
    exact absurd hok (by simp)
  | cons t rest =>
    rw [htoks] at hok
    simp only [List.head?_cons] at hok
    have hft : flatTok t = true := by
      have h := hflat
      rw [htoks] at h
      simp only [List.all_cons, Bool.and_eq_true] at h
      exact h.1
    cases hk : t.kind
    case Op op =>
      rw [hk] at hok
      cases op
      case LeftParen =>
        unfold flatTok at hft
        rw [hk] at hft
        exact Bool.noConfusion hft
      all_goals
        simp only [] at hok
        exact absurd hok (by simp)
    all_goals
      rw [hk] at hok
      simp only [] at hok
      exact absurd hok (by simp)

theorem leftChildOK_of (op : Operator) (l : Expression)
    (h : ∀ l2 op2 r2 loc2, l = Expression.BinaryOp l2 op2 r2 loc2 →
      get_precedence op ≤ get_precedence op2) : leftChildOK op l = true := by
  cases l
  case BinaryOp l2 op2 r2 loc2 =>
    simp only [leftChildOK, decide_eq_true_eq]
    exact h l2 op2 r2 loc2 rfl
  all_goals rfl

theorem rightChildOK_of (op : Operator) (r : Expression)
    (h : ∀ l2 op2 r2 loc2, r = Expression.BinaryOp l2 op2 r2 loc2 →
      get_precedence op < get_precedence op2) : rightChildOK op r = true := by
  cases r
  case BinaryOp l2 op2 r2 loc2 =>
    simp only [rightChildOK, decide_eq_true_eq]
    exact h l2 op2 r2 loc2 rfl
  all_goals rfl

theorem notAdditiveTop_of_prec (e : Expression)
    (h : ∀ l op r loc, e = Expression.BinaryOp l op r loc →
      precedences.SUM < get_precedence op) : notAdditiveTop e = true := by
  cases e
  case BinaryOp l op r loc =>
    have h2 := h l op r loc rfl
    cases op <;> first
      | rfl
      | (exfalso; simp only [get_precedence, precedences.SUM] at h2; omega)
  all_goals rfl

theorem precWF_noAddUnderMul : ∀ (e : Expression), precWF e = true → noAddUnderMul e = true
  | .Ident _ _, _ => rfl
  | .IntLiteral _ _ _, _ => rfl
  | .UintLiteral _ _ _, _ => rfl
  | .FloatLiteral _ _ _, _ => rfl
  | .Bool _ _, _ => rfl
  | .Block _ _, _ => rfl
  | .Var _ _ _ _ _, _ => rfl
  | .Assign _ _ _, _ => rfl
  | .If _ _ _ _, _ => rfl
  | .FunCall _ _ _, _ => rfl
  | .Return _ _, _ => rfl
  | .BinaryOp l op r loc, h => by
    simp only [precWF, Bool.and_eq_true] at h
    obtain ⟨⟨⟨hl, hr⟩, hpl⟩, hpr⟩ := h
    simp only [noAddUnderMul, Bool.and_eq_true]
    refine ⟨⟨?_, precWF_noAddUnderMul l hpl⟩, precWF_noAddUnderMul r hpr⟩
    split
    · rename_i hss
      have hp4 : get_precedence op = precedences.MUL := by
        obtain hss | hss := hss <;> subst hss <;> rfl
      rw [Bool.and_eq_true]
      constructor
      · refine notAdditiveTop_of_prec l ?_
        intro l2 op2 r2 loc2 he
        subst he
        simp only [leftChildOK, decide_eq_true_eq] at hl
        rw [hp4] at hl
        simp only [precedences.SUM, precedences.MUL] at hl ⊢
        omega
      · refine notAdditiveTop_of_prec r ?_
        intro l2 op2 r2 loc2 he
        subst he
        simp only [rightChildOK, decide_eq_true_eq] at hr
        rw [hp4] at hr
        simp only [precedences.SUM, precedences.MUL] at hr ⊢
        omega
    · rfl

theorem climb_body_flat (p : Funs) (hwp : FlatWPSpec p.parse_with_precedence)
    (hcl : FlatClimbSpec p.climb) : FlatClimbSpec (climb_body p) := by
  intro minp left lx e lx' hflat hpwf htop hnext hok
  unfold climb_body at hok
  rw [Lexer.peek] at hok
  cases htoks : lx.tokens with
  | nil =>
    rw [htoks] at hok
    simp only [List.head?_nil] at hok
    injection hok with h1
    injection h1 with he hl
    subst he
    subst hl
    refine ⟨hpwf, htop, ?_, hflat⟩
    intro u op hu _
    rw [htoks, List.head?_nil] at hu
    exact Option.noConfusion hu
  | cons next rest =>
    rw [htoks] at hok
    simp only [List.head?_cons] at hok
    have hfn : flatTok next = true := by
      have h := hflat
      rw [htoks] at h
      simp only [List.all_cons, Bool.and_eq_true] at h
      exact h.1
    split at hok
    · rename_i operator hkind
      by_cases hbin : (Kind.Op operator).is_binary_op = true
      · rw [if_pos hbin] at hok
        by_cases hprec : get_precedence operator ≤ minp
        · rw [if_pos hprec] at hok
          injection hok with h1
          injection h1 with he hl
          subst he
          subst hl
          refine ⟨hpwf, htop, ?_, hflat⟩
          intro u op hu hko
          rw [htoks, List.head?_cons] at hu
          injection hu with hu1
          subst hu1
          rw [hkind] at hko
          injection hko with hko1
          subst hko1
          exact hprec
        · rw [if_neg hprec] at hok
          have hadv : lx.advance.tokens = rest := by
            simp [Lexer.advance, htoks]
          cases h2 : p.parse_with_precedence (get_precedence operator) lx.advance with
          | error err =>
            rw [h2] at hok
            exact absurd hok (by simp)
          | ok pr2 =>
            rw [h2] at hok
            obtain ⟨right, lx2⟩ := pr2
            simp only [] at hok
            have hflatadv : lx.advance.tokens.all flatTok = true := by
              rw [hadv]
              have h := hflat
              rw [htoks] at h
              simp only [List.all_cons, Bool.and_eq_true] at h
              exact h.2
            obtain ⟨hrwf, hrtop, hrnext, hflat2⟩ :=
              hwp (get_precedence operator) lx.advance right lx2 hflatadv h2
            have hlwf2 : precWF (Expression.BinaryOp left operator right
                (Location.mk left.location.start_byte right.location.end_byte)) = true := by
              simp only [precWF, Bool.and_eq_true]
              refine ⟨⟨⟨?_, ?_⟩, hpwf⟩, hrwf⟩
              · refine leftChildOK_of operator left ?_
                intro l2 op2 r2 loc2 hL
                exact hnext l2 op2 r2 loc2 hL next operator
                  (by rw [htoks, List.head?_cons]) hkind
              · exact rightChildOK_of operator right hrtop
            obtain ⟨hewf, hetop, henext, heflat⟩ :=
              hcl minp (Expression.BinaryOp left operator right
                  (Location.mk left.location.start_byte right.location.end_byte)) lx2 e lx'
                hflat2 hlwf2
                (by
                  intro l2 op2 r2 loc2 heq2
                  injection heq2 with ha hb hc hd
                  subst hb
                  exact Nat.lt_of_not_le hprec)
                (by
                  intro l2 op2 r2 loc2 heq2 u op hu hko
                  injection heq2 with ha hb hc hd
                  subst hb
                  exact hrnext u op hu hko)
                hok
            exact ⟨hewf, hetop, henext, heflat⟩
      · exfalso
        unfold flatTok at hfn
        rw [hkind] at hfn
        cases operator <;> first | exact hbin rfl | exact Bool.noConfusion hfn
    · rename_i hnotop
      injection hok with h1
      injection h1 with he hl
      subst he
      subst hl
      refine ⟨hpwf, htop, ?_, hflat⟩
      intro u op hu hko
      rw [htoks, List.head?_cons] at hu
      injection hu with hu1
      subst hu1
      exact absurd hko (hnotop op)

theorem parse_with_precedence_body_flat (p : Funs) (hop : FlatOpNever p.parse_operation)
    (hcl : FlatClimbSpec p.climb) : FlatWPSpec (parse_with_precedence_body p) := by
  intro minp lx e lx' hflat hok
  unfold parse_with_precedence_body at hok
  rw [Lexer.peek] at hok
  cases htoks : lx.tokens with
  | nil =>
    rw [htoks] at hok
    simp only [List.head?_nil] at hok
    exact absurd hok (by simp)
  | cons t rest =>
    rw [htoks] at hok
    simp only [List.head?_cons] at hok
    have hft : flatTok t = true := by
      have h := hflat
      rw [htoks] at h
      simp only [List.all_cons, Bool.and_eq_true] at h
      exact h.1
    split at hok
    · exact absurd hok (by simp)
    · rename_i left lx1 heq
      have hleft : litTop left = true ∧ lx1.tokens = rest := by
        split at heq
        · obtain ⟨h1, t2, rest2, ht2, hl2, _⟩ := parse_value_flat hflat heq
          rw [htoks] at ht2
          injection ht2 with ht2a ht2b
          subst ht2b
          exact ⟨h1, hl2⟩
        · exact absurd heq (fun hh => hop lx left lx1 hflat hh)
        · rename_i hkind
          unfold flatTok at hft
          rw [hkind] at hft
          exact Bool.noConfusion hft
        · rename_i hkind
          unfold flatTok at hft
          rw [hkind] at hft
          exact Bool.noConfusion hft
        · exact absurd heq (by simp)
      obtain ⟨hlit, hlx1⟩ := hleft
      have hflat1 : lx1.tokens.all flatTok = true := by
        rw [hlx1]
        have h := hflat
        rw [htoks] at h
        simp only [List.all_cons, Bool.and_eq_true] at h
        exact h.2
      split at hok
      · exact absurd hlit (by simp [litTop])
      · obtain ⟨hewf, hetop, henext, heflat⟩ :=
          hcl minp left lx1 e lx' hflat1 (litTop_precWF hlit)
            (fun l2 op2 r2 loc2 hL => absurd hL (fun hh =>
              litTop_not_bin hlit l2 op2 r2 loc2 hh))
            (fun l2 op2 r2 loc2 hL => absurd hL (fun hh =>
              litTop_not_bin hlit l2 op2 r2 loc2 hh))
            hok
        exact ⟨hewf, hetop, henext, heflat⟩

theorem flat_funs_spec (n : Nat) :
    FlatWPSpec (mkFuns n).parse_with_precedence ∧ FlatClimbSpec (mkFuns n).climb ∧
      FlatOpNever (mkFuns n).parse_operation := by
  induction n with
  | zero =>
    refine ⟨?_, ?_, ?_⟩
    · intro minp lx e lx' _ hok
      exact Except.noConfusion hok
    · intro minp left lx e lx' _ _ _ _ hok
      exact Except.noConfusion hok
    · intro lx e lx' _ hok
      exact Except.noConfusion hok
  | succ n ih =>
    obtain ⟨hwp, hclimb, hopn⟩ := ih
    exact ⟨parse_with_precedence_body_flat _ hopn hclimb,
      climb_body_flat _ hwp hclimb,
      parse_operation_body_flat _⟩

/-- C1: the precedence table.  On any input consisting solely of numeric
literals and `+ - * /`, every tree a successful `parse_expression` produces
reflects the precedence table (`precWF`), and in particular no additive node
sits directly under a multiplicative node — `*` and `/` bind tighter than
`+` and `-`.  Concretely `"1 + 2 * 3"` parses as `1 + (2 * 3)`, not
`(1 + 2) * 3`.  The table orders additive (`+`,`-`, strength SUM) <
multiplicative (`*`,`/`, MUL) < logical-and (`&&`, ASSOC) < equality and
open-parenthesis (`==`, `!=`, `(`, APPLY), and every operator outside the
table gets the base (lowest) strength. -/
theorem c1_precedence_table (fuel : Nat) (lx : Lexer) (e : Expression) (lx' : Lexer)
    (hflat : lx.tokens.all flatTok = true)
    (hok : parse_expression fuel lx = .ok (e, lx')) :
    (precWF e = true ∧ noAddUnderMul e = true) ∧
    parse_expression 32 lex_1p2t3 = .ok (tree_1p2t3, Lexer.mk [] "1 + 2 * 3") ∧
    (get_precedence Operator.Plus = precedences.SUM ∧
     get_precedence Operator.Minus = precedences.SUM ∧
     get_precedence Operator.Star = precedences.MUL ∧
     get_precedence Operator.Slash = precedences.MUL ∧
     get_precedence Operator.And = precedences.ASSOC ∧
     get_precedence Operator.EqualEqual = precedences.APPLY ∧
     get_precedence Operator.NotEqual = precedences.APPLY ∧
     get_precedence Operator.LeftParen = precedences.APPLY ∧
     precedences.BASE < precedences.SUM ∧ precedences.SUM < precedences.MUL ∧
     precedences.MUL < precedences.ASSOC ∧ precedences.ASSOC < precedences.APPLY) ∧
    (∀ op : Operator,
      op ∉ [Operator.Plus, Operator.Minus, Operator.Star, Operator.Slash, Operator.And,
        Operator.EqualEqual, Operator.NotEqual, Operator.LeftParen] →
      get_precedence op = precedences.BASE) := by
  refine ⟨?_, by rfl,
    ⟨rfl, rfl, rfl, rfl, rfl, rfl, rfl, rfl, by decide, by decide, by decide, by decide⟩, ?_⟩
  · cases fuel with
    | zero => exact absurd hok (by simp [parse_expression, mkFuns, outOfFuel])
    | succ n =>
      have hok2 : parse_expression_body (mkFuns n) lx = .ok (e, lx') := hok
      unfold parse_expression_body at hok2
      rw [Lexer.peek] at hok2
      cases htoks : lx.tokens with
      | nil =>
        rw [htoks] at hok2
        exact absurd hok2 (by simp)
      | cons t rest =>
        rw [htoks] at hok2
        simp only [List.head?_cons] at hok2
        have hft : flatTok t = true := by
          have h := hflat
          rw [htoks] at h
          simp only [List.all_cons, Bool.and_eq_true] at h
          exact h.1
        cases hk : t.kind
        case Var =>
          unfold flatTok at hft
          rw [hk] at hft
          exact Bool.noConfusion hft
        case Const =>
          unfold flatTok at hft
          rw [hk] at hft
          exact Bool.noConfusion hft
        all_goals
          rw [hk] at hok2
          simp only [] at hok2
          obtain ⟨hwf, htopp, hnextp, hflatp⟩ :=
            (flat_funs_spec n).1 precedences.BASE lx e lx' hflat hok2
          exact ⟨hwf, precWF_noAddUnderMul e hwf⟩
  · intro op hop
    cases op <;> first | rfl | exact absurd (by simp) hop

/-- C1 witness: the table theorem instantiated on the parse of
`"1 + 2 * 3"`, whose tree is precedence well formed with `2 * 3` grouped
under the `+`. -/
theorem c1_precedence_table_witness :
    precWF tree_1p2t3 = true ∧ noAddUnderMul tree_1p2t3 = true :=
  (c1_precedence_table 32 lex_1p2t3 tree_1p2t3 (Lexer.mk [] "1 + 2 * 3")
    (by decide) (by rfl)).1

theorem getLast_cons_of_some {α : Type} {l : List α} {z : α} (a : α)
    (h : l.getLast? = some z) : (a :: l).getLast? = some z := by
  cases l with
  | nil => exact Option.noConfusion h
  | cons b r =>
    rw [List.getLast?_cons_cons]
    exact h

theorem getLast_append_some {α : Type} {l2 : List α} {z : α}
    (h : l2.getLast? = some z) : ∀ l1 : List α, (l1 ++ l2).getLast? = some z := by
  intro l1
  induction l1 with
  | nil => simpa using h
  | cons a r ih =>
    rw [List.cons_append]
    exact getLast_cons_of_some a ih

theorem span_climb_body (p : Funs) (hwp : SpanWPSpec p.parse_with_precedence)
    (hcl : SpanClimbSpec p.climb) : SpanClimbSpec (climb_body p) := by
  intro minp left lx e lx' hflat hok
  unfold climb_body at hok
  rw [Lexer.peek] at hok
  cases htoks : lx.tokens with
  | nil =>
    rw [htoks] at hok
    simp only [List.head?_nil] at hok
    injection hok with h1
    injection h1 with he hl
    subst he
    subst hl
    refine ⟨[], ?_, Or.inl ⟨rfl, rfl⟩⟩
    simp [htoks]
  | cons next rest =>
    rw [htoks] at hok
    simp only [List.head?_cons] at hok
    split at hok
    · rename_i operator hkind
      by_cases hbin : (Kind.Op operator).is_binary_op = true
      · rw [if_pos hbin] at hok
        by_cases hprec : get_precedence operator ≤ minp
        · rw [if_pos hprec] at hok
          injection hok with h1
          injection h1 with he hl
          subst he
          subst hl
          refine ⟨[], ?_, Or.inl ⟨rfl, rfl⟩⟩
          simp [htoks]
        · rw [if_neg hprec] at hok
          have hadv : lx.advance.tokens = rest := by
            simp [Lexer.advance, htoks]
          cases h2 : p.parse_with_precedence (get_precedence operator) lx.advance with
          | error err =>
            rw [h2] at hok
            exact absurd hok (by simp)
          | ok pr2 =>
            rw [h2] at hok
            obtain ⟨right, lx2⟩ := pr2
            simp only [] at hok
            have hflatadv : lx.advance.tokens.all flatTok = true := by
              rw [hadv]
              have h := hflat
              rw [htoks] at h
              simp only [List.all_cons, Bool.and_eq_true] at h
              exact h.2
            obtain ⟨c2, t0, tn, hsplit2, hh2, hlast2, hst2, hen2⟩ :=
              hwp (get_precedence operator) lx.advance right lx2 hflatadv h2
            have hflat2 : lx2.tokens.all flatTok = true := by
              rw [hsplit2] at hflatadv
              simp only [List.all_append, Bool.and_eq_true] at hflatadv
              exact hflatadv.2
            obtain ⟨c3, hsplit3, hdisj⟩ :=
              hcl minp (Expression.BinaryOp left operator right
                  (Location.mk left.location.start_byte right.location.end_byte)) lx2 e lx'
                hflat2 hok
            rw [hadv] at hsplit2
            refine ⟨next :: (c2 ++ c3), ?_, Or.inr ?_⟩
            · rw [List.cons_append, hsplit2, hsplit3, List.append_assoc]
            · obtain ⟨hc3nil, hee⟩ | ⟨tn3, hlast3, hst3, hen3⟩ := hdisj
              · subst hc3nil
                subst hee
                refine ⟨tn, ?_, rfl, hen2⟩
                rw [List.append_nil]
                exact getLast_cons_of_some next hlast2
              · refine ⟨tn3, ?_, hst3, hen3⟩
                exact getLast_cons_of_some next (getLast_append_some hlast3 c2)
      · rw [if_neg hbin] at hok
        injection hok with h1
        injection h1 with he hl
        subst he
        subst hl
        refine ⟨[], ?_, Or.inl ⟨rfl, rfl⟩⟩
        simp [htoks]
    · injection hok with h1
      injection h1 with he hl
      subst he
      subst hl
      refine ⟨[], ?_, Or.inl ⟨rfl, rfl⟩⟩
      simp [htoks]

theorem span_wp_body (p : Funs) (hop : FlatOpNever p.parse_operation)
    (hcl : SpanClimbSpec p.climb) : SpanWPSpec (parse_with_precedence_body p) := by
  intro minp lx e lx' hflat hok
  unfold parse_with_precedence_body at hok
  rw [Lexer.peek] at hok
  cases htoks : lx.tokens with
  | nil =>
    rw [htoks] at hok
    simp only [List.head?_nil] at hok
    exact absurd hok (by simp)
  | cons t rest =>
    rw [htoks] at hok
    simp only [List.head?_cons] at hok
    have hft : flatTok t = true := by
      have h := hflat
      rw [htoks] at h
      simp only [List.all_cons, Bool.and_eq_true] at h
      exact h.1
    split at hok
    · exact absurd hok (by simp)
    · rename_i left lx1 heq
      have hleft : litTop left = true ∧ lx1.tokens = rest ∧ left.location = t.location := by
        split at heq
        · obtain ⟨h1, t2, rest2, ht2, hl2, hel⟩ := parse_value_flat hflat heq
          rw [htoks] at ht2
          injection ht2 with ht2a ht2b
          subst ht2a
          subst ht2b
          exact ⟨h1, hl2, hel⟩
        · exact absurd heq (fun hh => hop lx left lx1 hflat hh)
        · rename_i hkind
          unfold flatTok at hft
          rw [hkind] at hft
          exact Bool.noConfusion hft
        · rename_i hkind
          unfold flatTok at hft
          rw [hkind] at hft
          exact Bool.noConfusion hft
        · exact absurd heq (by simp)
      obtain ⟨hlit, hlx1, hloc⟩ := hleft
      have hflat1 : lx1.tokens.all flatTok = true := by
        rw [hlx1]
        have h := hflat
        rw [htoks] at h
        simp only [List.all_cons, Bool.and_eq_true] at h
        exact h.2
      split at hok
      · exact absurd hlit (by simp [litTop])
      · obtain ⟨c3, hsplit3, hdisj⟩ := hcl minp left lx1 e lx' hflat1 hok
        rw [hlx1] at hsplit3
        obtain ⟨hc3nil, hee⟩ | ⟨tn3, hlast3, hst3, hen3⟩ := hdisj
        · subst hc3nil
          subst hee
          simp only [List.nil_append] at hsplit3
          refine ⟨[t], t, t, ?_, rfl, rfl, ?_, ?_⟩
          · rw [List.cons_append, List.nil_append, ← hsplit3]
          · rw [hloc]
          · rw [hloc]
        · refine ⟨t :: c3, t, tn3, ?_, rfl, getLast_cons_of_some t hlast3, ?_, hen3⟩
          · rw [List.cons_append, ← hsplit3]
          · rw [hst3, hloc]

theorem span_funs_spec (n : Nat) :
    SpanWPSpec (mkFuns n).parse_with_precedence ∧ SpanClimbSpec (mkFuns n).climb := by
  induction n with
  | zero =>
    refine ⟨?_, ?_⟩
    · intro minp lx e lx' _ hok
      exact Except.noConfusion hok
    · intro minp left lx e lx' _ hok
      exact Except.noConfusion hok
  | succ n ih =>
    obtain ⟨hwp, hclimb⟩ := ih
    exact ⟨span_wp_body _ (flat_funs_spec n).2.2 hclimb, span_climb_body _ hwp hclimb⟩

/-- C5 (amended): round trip on the flat arithmetic fragment.  On any fully
consumed input consisting solely of numeric literals and `+ - * /`, the root
node's `Location` runs from the first token's start byte to the last token's
end byte, so `source[Location.start..Location.end]` is the whole expression
text; for `"1 + 2 * 3"` the slice reproduces the input exactly.  (The
unrestricted claim is false: a parenthesized input drops its outer
parentheses from the root span, and declarations drop the semicolon — see
the counterexample.) -/
theorem c5_flat_round_trip (fuel : Nat) (lx : Lexer) (e : Expression) (lx' : Lexer)
    (hflat : lx.tokens.all flatTok = true) (hall : lx'.tokens = [])
    (hok : parse_expression fuel lx = .ok (e, lx')) :
    (∃ t0 tn, lx.tokens.head? = some t0 ∧ lx.tokens.getLast? = some tn ∧
      e.location.start_byte = t0.location.start_byte ∧
      e.location.end_byte = tn.location.end_byte) ∧
    parse_expression 32 lex_1p2t3 = .ok (tree_1p2t3, Lexer.mk [] "1 + 2 * 3") ∧
    sliceStr "1 + 2 * 3" tree_1p2t3.location.start_byte tree_1p2t3.location.end_byte =
      "1 + 2 * 3" := by
  refine ⟨?_, by rfl, by rfl⟩
  cases fuel with
  | zero => exact absurd hok (by simp [parse_expression, mkFuns, outOfFuel])
  | succ n =>
    have hok2 : parse_expression_body (mkFuns n) lx = .ok (e, lx') := hok
    unfold parse_expression_body at hok2
    rw [Lexer.peek] at hok2
    cases htoks : lx.tokens with
    | nil =>
      rw [htoks] at hok2
      exact absurd hok2 (by simp)
    | cons t rest =>
      rw [htoks] at hok2
      simp only [List.head?_cons] at hok2
      have hft : flatTok t = true := by
        have h := hflat
        rw [htoks] at h
        simp only [List.all_cons, Bool.and_eq_true] at h
        exact h.1
      cases hk : t.kind
      case Var =>
        unfold flatTok at hft
        rw [hk] at hft
        exact Bool.noConfusion hft
      case Const =>
        unfold flatTok at hft
        rw [hk] at hft
        exact Bool.noConfusion hft
      all_goals
        rw [hk] at hok2
        simp only [] at hok2
        obtain ⟨c, t0, tn, hsplit, hh, hlast, hst, hen⟩ :=
          (span_funs_spec n).1 precedences.BASE lx e lx' hflat hok2
        rw [hall, List.append_nil] at hsplit
        have hc : t :: rest = c := htoks ▸ hsplit
        refine ⟨t0, tn, ?_, ?_, hst, hen⟩
        · rw [hc]
          exact hh
        · rw [hc]
          exact hlast

/-- C5 witness: the amended round trip instantiated on `"1 + 2 * 3"`. -/
theorem c5_flat_round_trip_witness :
    ∃ t0 tn, lex_1p2t3.tokens.head? = some t0 ∧ lex_1p2t3.tokens.getLast? = some tn ∧
      tree_1p2t3.location.start_byte = t0.location.start_byte ∧
      tree_1p2t3.location.end_byte = tn.location.end_byte :=
  (c5_flat_round_trip 32 lex_1p2t3 tree_1p2t3 (Lexer.mk [] "1 + 2 * 3")
    (by decide) rfl (by rfl)).1
